import Mathlib

/-!
Shallow embedding of the graph-compiler core of the Transunformers repository
(the tree normalizer / repeat collapser / flow classifier / graph builder /
layout adapter pipeline), together with theorems settling the frozen claims.

Modelling conventions:
* JavaScript numbers are modelled as `Int` (all values the claims touch are
  integers in the source); `x ?? y` on optional values is `Option.orElse`;
  `Record<string, T>` lookups are association-list lookups.
* `parameter_details` / `buffer_details` arrays and purely presentational
  node fields (geometry, css class names) are not part of any claim and are
  omitted from the node record.
* Imperative loops are rendered as folds or fuel-indexed recursions whose
  fuel provably dominates the number of iterations the source loop performs
  (noted at each definition).
-/

/-- One `count`/`size_bytes`/`trainable` record, as in the `RawNode`
`parameters.self` / `parameters.total` objects of `types.ts`. -/
structure Stat where
  count : Int
  size_bytes : Int
  trainable : Int
deriving DecidableEq

/-- A `parameters` or `buffers` summary: optional `self` and `total` parts. -/
structure StatSummary where
  self : Option Stat
  total : Option Stat
deriving DecidableEq

/-- The scalar fields of a `TreeNode` from `types.ts` (children are attached
by the `TreeNode` inductive below).  `repeat_` models the `repeat` field
(`repeat` is a reserved word in Lean). -/
structure NodeData where
  id : String
  name : String
  path : String
  className : Option String
  kind : Option String
  depth : Nat
  index : Option Int
  indexStart : Option Int
  indexEnd : Option Int
  repeat_ : Option Int
  parameters : Option StatSummary
  buffers : Option StatSummary
  tags : Option (List String)
  synthetic : Bool
deriving DecidableEq, Inhabited

/-- The canonical internal tree (`TreeNode` of `types.ts`). -/
inductive TreeNode where
  | node (data : NodeData) (children : List TreeNode)

instance : Inhabited TreeNode := ⟨.node default []⟩

mutual

def TreeNode.decEq : (a b : TreeNode) → Decidable (a = b)
  | .node d1 cs1, .node d2 cs2 =>
    if h : d1 = d2 then
      match TreeNode.decEqList cs1 cs2 with
      | isTrue h2 => isTrue (by rw [h, h2])
      | isFalse h2 => isFalse (by intro he; cases he; exact h2 rfl)
    else isFalse (by intro he; cases he; exact h rfl)

def TreeNode.decEqList : (as bs : List TreeNode) → Decidable (as = bs)
  | [], [] => isTrue rfl
  | a :: as, b :: bs =>
    match TreeNode.decEq a b, TreeNode.decEqList as bs with
    | isTrue h1, isTrue h2 => isTrue (by rw [h1, h2])
    | isFalse h1, _ => isFalse (by intro he; injection he; contradiction)
    | _, isFalse h2 => isFalse (by intro he; injection he; contradiction)
  | [], _ :: _ => isFalse (by intro he; cases he)
  | _ :: _, [] => isFalse (by intro he; cases he)

end

instance : DecidableEq TreeNode := TreeNode.decEq

@[simp] def TreeNode.data : TreeNode → NodeData
  | .node d _ => d

@[simp] def TreeNode.children : TreeNode → List TreeNode
  | .node _ cs => cs

@[simp] def TreeNode.id (t : TreeNode) : String := t.data.id
@[simp] def TreeNode.name (t : TreeNode) : String := t.data.name
@[simp] def TreeNode.path (t : TreeNode) : String := t.data.path
@[simp] def TreeNode.className (t : TreeNode) : Option String := t.data.className
@[simp] def TreeNode.kind (t : TreeNode) : Option String := t.data.kind
@[simp] def TreeNode.depth (t : TreeNode) : Nat := t.data.depth
@[simp] def TreeNode.index (t : TreeNode) : Option Int := t.data.index
@[simp] def TreeNode.indexStart (t : TreeNode) : Option Int := t.data.indexStart
@[simp] def TreeNode.indexEnd (t : TreeNode) : Option Int := t.data.indexEnd
@[simp] def TreeNode.repeat_ (t : TreeNode) : Option Int := t.data.repeat_
@[simp] def TreeNode.parameters (t : TreeNode) : Option StatSummary := t.data.parameters
@[simp] def TreeNode.buffers (t : TreeNode) : Option StatSummary := t.data.buffers
@[simp] def TreeNode.tags (t : TreeNode) : Option (List String) := t.data.tags
@[simp] def TreeNode.synthetic (t : TreeNode) : Bool := t.data.synthetic

/-- An inclusive integer range `{start, end}` (the `end` field is `endIdx`
because `end` is a Lean keyword). -/
structure IndexRange where
  start : Int
  endIdx : Int
deriving DecidableEq

/-- Digit string to number, as JavaScript `Number` on an all-digit string. -/
def digitsToNat (cs : List Char) : Nat :=
  cs.foldl (fun a c => a * 10 + (c.toNat - 48)) 0

/-- `parseRangeFromName` of `tree.ts`: match `^(\d+)\.\.(\d+)$`. -/
def parseRangeFromName (name : String) : Option IndexRange :=
  let cs := name.toList
  let d1 := cs.takeWhile Char.isDigit
  let rest := cs.drop d1.length
  if d1.isEmpty then none
  else
    match rest with
    | '.' :: '.' :: d2 =>
        if !d2.isEmpty && d2.all Char.isDigit then
          some ⟨(digitsToNat d1 : Nat), (digitsToNat d2 : Nat)⟩
        else none
    | _ => none

/-- `parseIndexFromName` of `tree.ts`: match `^\d+$`. -/
def parseIndexFromName (name : String) : Option Int :=
  let cs := name.toList
  if !cs.isEmpty && cs.all Char.isDigit then some ((digitsToNat cs : Nat) : Int)
  else none

/-- `resolveIndexRange` of `tree.ts`. -/
def resolveIndexRange (node : TreeNode) : Option IndexRange :=
  let rangeFromName := parseRangeFromName node.name
  let start := node.indexStart <|> rangeFromName.map (·.start) <|> node.index
      <|> parseIndexFromName node.name
  let endv := node.indexEnd <|> rangeFromName.map (·.endIdx) <|> node.index
      <|> parseIndexFromName node.name
  match start, endv with
  | some s, some e => some ⟨s, e⟩
  | _, _ => none

/-- `resolveRepeatCount` of `tree.ts`. -/
def resolveRepeatCount (node : TreeNode) : Int :=
  match node.repeat_ with
  | some r => r
  | none =>
      match resolveIndexRange node with
      | some range => range.endIdx - range.start + 1
      | none => 1

/-- `Math.round (total / rep)` for an integer `total` and positive integer
`rep` (JavaScript rounds halves toward positive infinity). -/
def intRoundDiv (total rep : Int) : Int :=
  Int.fdiv (2 * total + rep) (2 * rep)

/-- `resolveUnitParamCount` of `tree.ts`. -/
def resolveUnitParamCount (node : TreeNode) : Int :=
  let total := ((node.parameters.bind (·.total)).map (·.count)).getD 0
  let rep := resolveRepeatCount node
  if rep ≤ 0 then total else intRoundDiv total rep

/-- The structural fingerprint computed by `resolveSignature` of `tree.ts`. -/
structure Signature where
  shallow : String
  deep : Option String
  hasChildren : Bool
  hasIndex : Bool
deriving DecidableEq

/-- `resolveSignature` of `tree.ts`. -/
def resolveSignature (node : TreeNode) : Signature :=
  let classKey := node.className.getD node.name
  let tagKey := String.intercalate "|" (node.tags.getD [])
  let unitParams := resolveUnitParamCount node
  let childKey :=
    if node.children.length > 0 then
      String.intercalate ","
        (node.children.map fun child =>
          (child.className.getD child.name) ++ ":" ++ (child.kind.getD ""))
    else ""
  { shallow := classKey ++ "|" ++ tagKey ++ "|" ++ toString unitParams
    deep :=
      if childKey ≠ "" then
        some (classKey ++ "|" ++ tagKey ++ "|" ++ toString unitParams ++ "|" ++ childKey)
      else none
    hasChildren := node.children.length > 0
    hasIndex := (resolveIndexRange node).isSome }

/-- The run-extension test of `collapseRepeatingChildren` in `tree.ts`: a
child with signature `sb` continues a run opened by a child with signature
`sa` (the source compares each new child against the signature of the run's
first member). -/
def collapseCompat (a b : TreeNode) : Bool :=
  let sa := resolveSignature a
  let sb := resolveSignature b
  sa.shallow = sb.shallow && sa.hasIndex && sb.hasIndex &&
    (!(sa.hasChildren && sb.hasChildren) || sa.deep = sb.deep)

/-- Which of the two summary slots of a node is being summed. -/
inductive StatKey where
  | parameters
  | buffers
deriving DecidableEq

@[simp] def TreeNode.statsOf (t : TreeNode) : StatKey → Option StatSummary
  | .parameters => t.parameters
  | .buffers => t.buffers

/-- The accumulator of the `sumStats` loop in `tree.ts`. -/
structure SumAcc where
  hasSelf : Bool
  hasTotal : Bool
  selfCount : Int
  selfBytes : Int
  selfTrainable : Int
  totalCount : Int
  totalBytes : Int
  totalTrainable : Int
deriving DecidableEq

def sumAccInit : SumAcc := ⟨false, false, 0, 0, 0, 0, 0, 0⟩

/-- One iteration of the `sumStats` loop (the `count ?? 0` defaults of the
source are identities here because `Stat` fields are total).  -/
def sumAccStep (acc : SumAcc) (stats : Option StatSummary) : SumAcc :=
  let acc1 :=
    match stats.bind (·.self) with
    | some s =>
        { acc with
          hasSelf := true
          selfCount := acc.selfCount + s.count
          selfBytes := acc.selfBytes + s.size_bytes
          selfTrainable := acc.selfTrainable + s.trainable }
    | none => acc
  match stats.bind (·.total) with
  | some s =>
      { acc1 with
        hasTotal := true
        totalCount := acc1.totalCount + s.count
        totalBytes := acc1.totalBytes + s.size_bytes
        totalTrainable := acc1.totalTrainable + s.trainable }
  | none => acc1

/-- `sumStats` of `tree.ts`. -/
def sumStats (nodes : List TreeNode) (key : StatKey) : Option StatSummary :=
  let acc := nodes.foldl (fun a n => sumAccStep a (n.statsOf key)) sumAccInit
  if !acc.hasSelf && !acc.hasTotal then none
  else
    some
      { self :=
          if acc.hasSelf then some ⟨acc.selfCount, acc.selfBytes, acc.selfTrainable⟩
          else none,
        total :=
          if acc.hasTotal then some ⟨acc.totalCount, acc.totalBytes, acc.totalTrainable⟩
          else none }

/-- The contiguity scan of `buildCollapsedNode`: starting from expected value
`start`, check every range begins exactly where the previous one ended plus
one; returns the final `(contiguous, expected)` pair. -/
def contiguousScan (start : Int) (ranges : List IndexRange) : Bool × Int :=
  ranges.foldl
    (fun st r =>
      if !st.1 then st
      else if r.start ≠ st.2 then (false, st.2)
      else (true, r.endIdx + 1))
    (true, start)

/-- The index-range computation of `buildCollapsedNode` in `tree.ts`:
`some (start, end)` when every member resolves a range and the ranges are
contiguous, otherwise `none`. -/
def groupRangeInfo (group : List TreeNode) : Option (Int × Int) :=
  let ranges := group.map resolveIndexRange
  match ranges with
  | some r0 :: _ =>
      if ranges.all (·.isSome) then
        let scan := contiguousScan r0.start (ranges.map (·.getD ⟨0, 0⟩))
        if scan.1 then some (r0.start, scan.2 - 1) else none
      else none
  | _ => none

/-- `buildCollapsedNode` of `tree.ts`.  The source reads `group[0]`; it is
only ever called on runs of length ≥ 2, so `headI` (with a default value on
the empty list) is faithful on every reachable input. -/
def buildCollapsedNode (group : List TreeNode) (parentPath : String) : TreeNode :=
  let first := group.headI
  let info := groupRangeInfo group
  let indexStart : Option Int := info.map (·.1)
  let indexEnd : Option Int := info.map (·.2)
  let name :=
    match info with
    | some (s, e) => toString s ++ ".." ++ toString e
    | none => first.name
  let rep := group.foldl (fun sum node => sum + resolveRepeatCount node) 0
  let parameters := sumStats group .parameters
  let buffers := sumStats group .buffers
  let tagList := first.tags.getD []
  let className := first.className
  let labelBase :=
    match info with
    | some (s, e) => "[" ++ toString s ++ "-" ++ toString e ++ "]"
    | none => first.name
  let path := parentPath ++ "::stack:" ++ labelBase
  .node
    { id := path
      name := name
      path := path
      className := className
      kind := some "collapsed"
      depth := first.depth
      index := none
      indexStart := indexStart
      indexEnd := indexEnd
      repeat_ := some rep
      parameters := parameters
      buffers := buffers
      tags := some tagList
      synthetic := true } []

/-- The `start` resolution of `splitCollapsedNode` in `tree.ts`
(`node.indexStart ?? parseRangeFromName(node.name)?.start ?? (node.repeat ? 0 : null)`). -/
def splitStart (node : TreeNode) : Option Int :=
  node.indexStart <|> (parseRangeFromName node.name).map (·.start) <|>
    (if node.repeat_.getD 0 ≠ 0 then some 0 else none)

/-- The `end` resolution of `splitCollapsedNode` in `tree.ts`. -/
def splitEnd (node : TreeNode) : Option Int :=
  node.indexEnd <|> (parseRangeFromName node.name).map (·.endIdx) <|>
    (if node.repeat_.getD 0 ≠ 0 then some (node.repeat_.getD 0 - 1) else none)

/-- The one synthetic leaf (`{...node, kind: 'leaf', ...}`) that
`splitCollapsedNode` builds for index `value`. -/
def splitLeaf (node : TreeNode) (value : Int) : TreeNode :=
  let rangePath := node.path ++ "::" ++ toString value
  .node
    { node.data with
      id := rangePath
      name := toString value
      path := rangePath
      kind := some "leaf"
      index := some value
      indexStart := some value
      indexEnd := some value
      repeat_ := some 1
      synthetic := true } []

/-- The one synthetic sub-range node (`kind: 'collapsed'`) that
`splitCollapsedNode` builds for the segment `[current, segmentEnd]`. -/
def splitSegment (node : TreeNode) (current segmentEnd : Int) : TreeNode :=
  let rangePath := node.path ++ "::" ++ toString current ++ "-" ++ toString segmentEnd
  .node
    { node.data with
      id := rangePath
      name := toString current ++ ".." ++ toString segmentEnd
      path := rangePath
      kind := some "collapsed"
      indexStart := some current
      indexEnd := some segmentEnd
      repeat_ := some (segmentEnd - current + 1)
      synthetic := true } []

/-- The `for (current = start; current <= end; current += segmentSize)` loop
of `splitCollapsedNode`, fuel-indexed.  The caller passes fuel equal to the
range length, which dominates the iteration count whenever
`segmentSize ≥ 1` (the source loop does not terminate for
`segmentSize ≤ 0`, a configuration no caller produces). -/
def segmentLoop (node : TreeNode) (segmentSize e : Int) : Nat → Int → List TreeNode
  | 0, _ => []
  | fuel + 1, current =>
      if current ≤ e then
        splitSegment node current (min e (current + segmentSize - 1)) ::
          segmentLoop node segmentSize e fuel (current + segmentSize)
      else []

/-- `splitCollapsedNode` of `tree.ts` (the `segmentSize` default of 8 is
always passed explicitly by callers). -/
def splitCollapsedNode (node : TreeNode) (segmentSize : Int) : List TreeNode :=
  match splitStart node, splitEnd node with
  | some s, some e =>
      let rangeLength := e - s + 1
      if rangeLength ≤ segmentSize then
        (List.range rangeLength.toNat).map fun i => splitLeaf node (s + Int.ofNat i)
      else segmentLoop node segmentSize e rangeLength.toNat s
  | _, _ => []

/-! ### Flow classifier and graph builder (`graph-builder.ts`) -/

/-- `sub.isPrefixOf` at some position of `hay`: JavaScript
`String.prototype.includes` at the character-list level. -/
def charsIncludes (hay sub : List Char) : Bool :=
  hay.tails.any fun t => sub.isPrefixOf t

/-- JavaScript `text.includes(sub)`. -/
def strIncludes (hay sub : String) : Bool :=
  charsIncludes hay.toList sub.toList

/-- `toLowerCase` as a character-list map (kernel-reducible; the vocabulary
matches below only involve ASCII). -/
def strToLower (s : String) : String :=
  String.mk (s.data.map Char.toLower)

/-- `resolveNodeText` of `graph-builder.ts`:
`` `${name} ${className ?? ''} ${path} ${(tags ?? []).join(' ')}`.toLowerCase() ``. -/
def resolveNodeText (node : TreeNode) : String :=
  (node.name ++ " " ++ node.className.getD "" ++ " " ++ node.path ++ " " ++
      String.intercalate " " (node.tags.getD [])) |> strToLower

/-- `resolveOrderIndex` of `graph-builder.ts`. -/
def resolveOrderIndex (node : TreeNode) : Option Int :=
  node.index <|> node.indexStart

/-- `isParallelContainer` of `graph-builder.ts` (mixture-of-experts / router
vocabulary). -/
def isParallelContainer (node : TreeNode) : Bool :=
  let text := resolveNodeText node
  let tags := (node.tags.getD []).map strToLower
  tags.any (fun tag => ["experts", "expert", "router", "moe"].contains tag) ||
    strIncludes text "experts" || strIncludes text "expert" ||
    strIncludes text "router" || strIncludes text "moe" ||
    strIncludes text "mixture" || strIncludes text "mixture_of_experts"

/-- One element of the `{child, originalIndex, order}` array built by
`resolveSequentialOrder`. -/
structure OrderedChild where
  child : TreeNode
  originalIndex : Nat
  order : Option Int

/-- The comparator of `resolveSequentialOrder`, as a boolean `≤`-test
(`cmp a b ≤ 0` for the source's numeric comparator). -/
def seqLe (a b : OrderedChild) : Bool :=
  match a.order, b.order with
  | some x, some y =>
      if x = y then a.originalIndex ≤ b.originalIndex else x ≤ y
  | _, _ => a.originalIndex ≤ b.originalIndex

/-- Insert into a sorted list, keeping the inserted (originally earlier)
element before later elements it compares `le`-equal to. -/
def orderedInsertB (le : OrderedChild → OrderedChild → Bool) (a : OrderedChild) :
    List OrderedChild → List OrderedChild
  | [] => [a]
  | b :: l => if le a b then a :: b :: l else b :: orderedInsertB le a l

/-- Stable insertion sort.  `Array.prototype.sort` is required to be stable
and the source comparator is consistent, so any stable sort (the engine's
TimSort included) produces exactly this list. -/
def insertionSortB (le : OrderedChild → OrderedChild → Bool) :
    List OrderedChild → List OrderedChild
  | [] => []
  | a :: l => orderedInsertB le a (insertionSortB le l)

/-- The `children.map((child, originalIndex) => ...)` tagging step of
`resolveSequentialOrder`, with the running callback index made explicit. -/
def tagChildren : List TreeNode → Nat → List OrderedChild
  | [], _ => []
  | c :: cs, i => ⟨c, i, resolveOrderIndex c⟩ :: tagChildren cs (i + 1)

/-- `resolveSequentialOrder` of `graph-builder.ts`. -/
def resolveSequentialOrder (children : List TreeNode) : List TreeNode :=
  let indexed := (tagChildren children 0).filter fun item => item.order.isSome
  if indexed.length < 2 then children
  else if indexed.length ≠ children.length then children
  else (insertionSortB seqLe indexed).map fun item => item.child

/-- `resolveBranchKey` of `graph-builder.ts`. -/
def resolveBranchKey (node : TreeNode) : Option String :=
  let text := resolveNodeText node
  let tags := (node.tags.getD []).map strToLower
  let hasTag := fun (values : List String) => tags.any fun tag => values.contains tag
  if hasTag ["vision", "visual", "image", "video"] ||
      strIncludes text "vision" || strIncludes text "visual" ||
      strIncludes text "image" || strIncludes text "video" then
    some "vision"
  else if hasTag ["text", "language"] || strIncludes text "text" ||
      strIncludes text "language" then
    some "text"
  else if hasTag ["audio", "speech", "whisper"] || strIncludes text "audio" ||
      strIncludes text "speech" || strIncludes text "whisper" then
    some "audio"
  else none

/-- `isConnectorNode` of `graph-builder.ts`. -/
def isConnectorNode (node : TreeNode) : Bool :=
  let text := resolveNodeText node
  let tags := (node.tags.getD []).map strToLower
  let hasTag := fun (values : List String) => tags.any fun tag => values.contains tag
  hasTag ["connector", "fusion", "adapter", "bridge", "projector", "projection",
      "align", "alignment", "merge", "multimodal", "cross_attn", "cross-attn",
      "qformer", "q_former"] ||
    strIncludes text "connector" || strIncludes text "fusion" ||
    strIncludes text "adapter" || strIncludes text "bridge" ||
    strIncludes text "projector" || strIncludes text "projection" ||
    strIncludes text "align" || strIncludes text "alignment" ||
    strIncludes text "merge" || strIncludes text "multimodal" ||
    strIncludes text "multi_modal" || strIncludes text "cross_attn" ||
    strIncludes text "cross-attn" || strIncludes text "crossattn" ||
    strIncludes text "qformer" || strIncludes text "q_former"

/-- `hasParallelBranches` of `graph-builder.ts`. -/
def hasParallelBranches (children : List TreeNode) : Bool :=
  let resolved := children.map fun child => (child, resolveBranchKey child)
  let keys := resolved.filterMap (·.2)
  if keys.length < 2 then false
  else if resolved.any (fun item => item.2.isNone && isConnectorNode item.1) then false
  else keys.dedup.length ≥ 2

/-- The result type of `resolveFlowMode`. -/
inductive FlowMode where
  | indexed (order : List TreeNode)
  | parallel
deriving DecidableEq

/-- `resolveFlowMode` of `graph-builder.ts` (the unused `_stageCache`
parameter is dropped). -/
def resolveFlowMode (parent : TreeNode) (children : List TreeNode) : FlowMode :=
  if children.length < 2 then .indexed children
  else if isParallelContainer parent then .parallel
  else if hasParallelBranches children then .parallel
  else .indexed (resolveSequentialOrder children)

/-- A graph edge (`id`, `source`, `target`); the presentational `type` /
`data` / `className` fields of the reactflow `Edge` carry no identity and
are omitted. -/
structure GEdge where
  id : String
  source : String
  target : String
deriving DecidableEq

/-- `createStructureEdge` of `buildGraph`. -/
def createStructureEdge (source target : String) : GEdge :=
  ⟨"structure:" ++ source ++ "=>" ++ target, source, target⟩

/-- `createFlowEdge` of `buildGraph`. -/
def createFlowEdge (source target : String) : GEdge :=
  ⟨"flow:" ++ source ++ "=>" ++ target, source, target⟩

/-- The caller-supplied options of `buildGraph`; the `expanded` record is an
association list (`Record<string, boolean>` lookups become `List.lookup`). -/
structure GraphBuildOptions where
  expanded : List (String × Bool)
  autoDepth : Nat
  viewMode : String
  splitSize : Int

/-- `shouldExpandNode` of `graph-builder.ts`. -/
def shouldExpandNode (node : TreeNode) (options : GraphBuildOptions) : Bool :=
  match options.expanded.lookup node.id with
  | some true => true
  | some false => false
  | none =>
      if node.kind = some "collapsed" then false
      else node.depth < options.autoDepth

/-- `resolveChildren` of `graph-builder.ts`. -/
def resolveChildren (node : TreeNode) (options : GraphBuildOptions) (expand : Bool) :
    List TreeNode :=
  if options.viewMode = "full" then node.children
  else if node.kind = some "collapsed" then
    (if expand then splitCollapsedNode node options.splitSize else [])
  else node.children

/-- `{...node, depth}`: a node with its depth replaced. -/
def setDepth (t : TreeNode) (d : Nat) : TreeNode :=
  .node { t.data with depth := d } t.children

mutual

/-- Structural height of a tree (used to size the fuel of
`resolveGraphTreeF`). -/
def treeHeight : TreeNode → Nat
  | .node _ cs => heightList cs + 1

/-- Structural height of a forest. -/
def heightList : List TreeNode → Nat
  | [] => 0
  | c :: cs => max (treeHeight c) (heightList cs)

end

/-- The recursive `resolveGraphTree` closure of `buildGraph`, fuel-indexed.
The recursion is structural on real children but also descends into the
fresh nodes returned by `splitCollapsedNode`; those synthetic nodes carry no
children and any second-level split lands in the per-index leaf branch, so
the recursion depth is bounded by the structural height plus two and the
fuel chosen by `resolveGraphTree` below is never exhausted. -/
def resolveGraphTreeF (options : GraphBuildOptions) :
    Nat → TreeNode → Nat → TreeNode
  | 0, node, depth => setDepth node depth
  | fuel + 1, node, depth =>
      let nextNode := setDepth node depth
      let expand := shouldExpandNode nextNode options
      let children := if expand then resolveChildren nextNode options expand else []
      .node nextNode.data
        (children.map fun child =>
          resolveGraphTreeF options fuel (setDepth child (depth + 1)) (depth + 1))

/-- `resolveGraphTree root 0` as invoked by `buildGraph`. -/
def resolveGraphTree (options : GraphBuildOptions) (root : TreeNode) : TreeNode :=
  resolveGraphTreeF options (treeHeight root + 3) root 0

mutual

/-- The structure edges pushed by the `visit` closure of `buildGraph` while
visiting a (sub)tree: in `indexed` flow mode one containment edge per child,
interleaved with each child's own edges, in source push order. -/
def structEdges : TreeNode → List GEdge
  | .node d cs =>
    if cs.isEmpty then []
    else
      match resolveFlowMode (.node d cs) cs with
      | .parallel => structEdgesList cs
      | .indexed _ => structChildEdges d.id cs

/-- Structure edges of the per-child loop in `indexed` mode. -/
def structChildEdges (pid : String) : List TreeNode → List GEdge
  | [] => []
  | c :: cs => createStructureEdge pid c.id :: (structEdges c ++ structChildEdges pid cs)

/-- Structure edges contributed by a forest of already-visited children. -/
def structEdgesList : List TreeNode → List GEdge
  | [] => []
  | c :: cs => structEdges c ++ structEdgesList cs

end

/-- The consecutive-pair flow edges of `buildGraph`'s `indexed` branch
(`for index in 0..ordered.length-2`). -/
def chainEdges (ordered : List TreeNode) : List GEdge :=
  (ordered.zip ordered.tail).map fun p => createFlowEdge p.1.id p.2.id

mutual

/-- The flow edges pushed by the `visit` closure of `buildGraph` while
visiting a (sub)tree: consecutive-chain edges in `indexed` mode, one
hub-and-spoke edge per child in `parallel` mode, plus the children's own
flow edges. -/
def flowEdges : TreeNode → List GEdge
  | .node d cs =>
    if cs.isEmpty then []
    else
      match resolveFlowMode (.node d cs) cs with
      | .indexed ord => chainEdges ord ++ flowEdgesList cs
      | .parallel => hubEdges d.id cs

/-- Flow edges of the per-child loop in `parallel` mode. -/
def hubEdges (pid : String) : List TreeNode → List GEdge
  | [] => []
  | c :: cs => createFlowEdge pid c.id :: (flowEdges c ++ hubEdges pid cs)

/-- Flow edges contributed by a forest of already-visited children. -/
def flowEdgesList : List TreeNode → List GEdge
  | [] => []
  | c :: cs => flowEdges c ++ flowEdgesList cs

end

mutual

/-- All node ids of a tree, root first (the `id` of every emitted graph
node). -/
def nodeIds : TreeNode → List String
  | .node d cs => d.id :: nodeIdsList cs

/-- All node ids of a forest. -/
def nodeIdsList : List TreeNode → List String
  | [] => []
  | c :: cs => nodeIds c ++ nodeIdsList cs

end

/-- The `edges = [...structureEdges, ...flowEdges]` array returned by
`buildGraph` (node emission carries no edge identity and is omitted). -/
def buildGraphEdges (root : TreeNode) (options : GraphBuildOptions) : List GEdge :=
  let layoutRoot := resolveGraphTree options root
  structEdges layoutRoot ++ flowEdges layoutRoot

/-! ### Layout adapter edge selection (`elk-layout.ts`) -/

mutual

/-- `buildParentIndex` of `elk-layout.ts`: the `(id, parentId)` entries in
walk order.  `Map.set` overwrites, so lookups read the latest entry. -/
def parentIndexWalk : TreeNode → Option String → List (String × Option String)
  | .node d cs, parentId => (d.id, parentId) :: parentIndexWalkList cs (some d.id)

/-- `buildParentIndex` over a forest. -/
def parentIndexWalkList : List TreeNode → Option String → List (String × Option String)
  | [], _ => []
  | c :: cs, pid => parentIndexWalk c pid ++ parentIndexWalkList cs pid

end

/-- `parentById.get(key) ?? null` (latest `set` wins, missing key is
`null`). -/
def parentGet (m : List (String × Option String)) (key : String) : Option String :=
  ((m.reverse.lookup key).getD none)

/-- The `while (current)` walk of `isAncestor`, fuel-indexed (the source map
is built from a tree walk, so parent chains are shorter than the map; the
empty string is falsy in JavaScript and stops the walk). -/
def isAncestorGo (m : List (String × Option String)) (ancestorId : String) :
    Nat → Option String → Bool
  | 0, _ => false
  | fuel + 1, current =>
      match current with
      | none => false
      | some s =>
          if s = "" then false
          else if s = ancestorId then true
          else isAncestorGo m ancestorId fuel (parentGet m s)

/-- `isAncestor` of `elk-layout.ts`. -/
def isAncestor (ancestorId nodeId : String)
    (parentById : List (String × Option String)) : Bool :=
  isAncestorGo parentById ancestorId (parentById.length + 1) (parentGet parentById nodeId)

mutual

/-- `buildParallelLayoutEdges` of `elk-layout.ts`. -/
def buildParallelLayoutEdges : TreeNode → List GEdge
  | .node d cs =>
    let localEdges :=
      if cs.length > 1 then
        match resolveFlowMode (.node d cs) cs with
        | .parallel =>
            (cs.zip cs.tail).map fun p =>
              ⟨"layout:parallel:" ++ d.id ++ ":" ++ p.1.id ++ "=>" ++ p.2.id,
                p.1.id, p.2.id⟩
        | .indexed _ => []
      else []
    localEdges ++ parallelEdgesList cs

/-- `buildParallelLayoutEdges` over a forest. -/
def parallelEdgesList : List TreeNode → List GEdge
  | [] => []
  | c :: cs => buildParallelLayoutEdges c ++ parallelEdgesList cs

end

/-- The edge list `layoutGraph` hands to the layout algorithm: the build
edges and the synthesized parallel-alignment edges, each filtered by the
two `isAncestor` tests. -/
def elkEdgeList (edges : List GEdge) (root : TreeNode) : List GEdge :=
  let parentById := parentIndexWalk root none
  let keep := fun (e : GEdge) =>
    !isAncestor e.source e.target parentById && !isAncestor e.target e.source parentById
  edges.filter keep ++ (buildParallelLayoutEdges root).filter keep

/-! ### Concrete inputs used by witnesses and counterexamples -/

/-- Builder for concrete test nodes (children-free fields spelled out). -/
def mkTestNode (nm pth : String) (tg : Option (List String)) (idx is ie rp : Option Int)
    (k : Option String) (ps bs : Option StatSummary) (cs : List TreeNode) : TreeNode :=
  .node
    { id := pth
      name := nm
      path := pth
      className := none
      kind := k
      depth := 0
      index := idx
      indexStart := is
      indexEnd := ie
      repeat_ := rp
      parameters := ps
      buffers := bs
      tags := tg
      synthetic := false } cs

/-- Two collapse-compatible siblings whose `parameters` summaries exist but
contain neither a `self` nor a `total` sub-object. -/
def cg1 : List TreeNode :=
  [mkTestNode "a" "p/0" none (some 0) none none none none (some ⟨none, none⟩) none [],
   mkTestNode "a" "p/1" none (some 1) none none none none (some ⟨none, none⟩) none []]

/-- Two collapse-compatible siblings with full statistics. -/
def wg1 : List TreeNode :=
  [mkTestNode "w" "p/0" none (some 0) none none none none
      (some ⟨some ⟨1, 2, 3⟩, some ⟨40, 5, 6⟩⟩) (some ⟨none, some ⟨7, 8, 9⟩⟩) [],
   mkTestNode "w" "p/1" none (some 1) none none none none
      (some ⟨some ⟨10, 20, 30⟩, some ⟨40, 50, 60⟩⟩) none []]

/-- A collapsed node spanning `[0..15]` with 16 total parameters. -/
def cNode2 : TreeNode :=
  mkTestNode "x" "c/x" none none (some 0) (some 15) (some 16) (some "collapsed")
    (some ⟨none, some ⟨16, 160, 16⟩⟩) none []

/-- A run whose members resolve index ranges `0..0` and `2..2` (a gap, so
the contiguity check fails). -/
def cg3 : List TreeNode :=
  [mkTestNode "a" "p/0" none (some 0) none none none none none none [],
   mkTestNode "a" "p/2" none (some 2) none none none none none none []]

/-- A contiguous run over indices 0 and 1. -/
def cg4 : List TreeNode :=
  [mkTestNode "a" "p/0" none (some 0) none none none none none none [],
   mkTestNode "a" "p/1" none (some 1) none none none none none none []]

/-- A collapsed node with an explicit `[0..31]` index span. -/
def w5node : TreeNode :=
  mkTestNode "x" "c/x" none none (some 0) (some 31) none (some "collapsed") none none []

/-- Sibling set for the ordering witness: explicit indices 1 and 0. -/
def w6a : TreeNode := mkTestNode "a" "r/a" none (some 1) none none none none none none []
/-- Second member of the ordering witness sibling set. -/
def w6b : TreeNode := mkTestNode "b" "r/b" none (some 0) none none none none none none []
/-- Parent of the ordering witness sibling set. -/
def w6p : TreeNode := mkTestNode "r" "r" none none none none none none none none []

/-- A child tagged `vision`. -/
def c7vision : TreeNode :=
  mkTestNode "a" "root/a" (some ["vision"]) none none none none none none none []
/-- A child tagged `text`. -/
def c7text : TreeNode :=
  mkTestNode "b" "root/b" (some ["text"]) none none none none none none none []
/-- A child tagged `projector`. -/
def c7proj : TreeNode :=
  mkTestNode "c" "root/c" (some ["projector"]) none none none none none none none []
/-- A parent whose own text matches no mixture-of-experts vocabulary. -/
def c7parent : TreeNode :=
  mkTestNode "root" "root" none none none none none none none none []

/-- An input leaf whose path collides with the id of a second-level split
leaf of `cex8collapsed`. -/
def cex8leaf : TreeNode :=
  mkTestNode "z" "c/x::0-7::0" none none none none none (some "leaf") none none []
/-- An input container whose path collides with the id of a first-level
split segment of `cex8collapsed`. -/
def cex8dup : TreeNode :=
  mkTestNode "dup" "c/x::0-7" none none none none none (some "container") none none
    [cex8leaf]
/-- An input collapsed node spanning `[0..15]`. -/
def cex8collapsed : TreeNode :=
  mkTestNode "x" "c/x" none none (some 0) (some 15) (some 16) (some "collapsed")
    none none []
/-- A root whose node ids are pairwise distinct but whose expansion makes a
split segment collide with `cex8dup`. -/
def cex8root : TreeNode :=
  mkTestNode "c" "c" none none none none none (some "container") none none
    [cex8collapsed, cex8dup]

/-- Options expanding the root, the collapsed node and the colliding id. -/
def cex8options : GraphBuildOptions :=
  { expanded := [("c", true), ("c/x", true), ("c/x::0-7", true)]
    autoDepth := 0
    viewMode := "compact"
    splitSize := 8 }

/-- A two-leaf tree with distinct, arrow-free ids. -/
def w8root : TreeNode :=
  mkTestNode "r" "r" none none none none none (some "container") none none
    [mkTestNode "a" "r/a" none (some 0) none none none (some "leaf") none none [],
     mkTestNode "b" "r/b" none (some 1) none none none (some "leaf") none none []]

/-- Options expanding only the root of `w8root`. -/
def w8options : GraphBuildOptions :=
  { expanded := [], autoDepth := 1, viewMode := "compact", splitSize := 8 }

/-- A root for the layout-adapter witness. -/
def w9root : TreeNode :=
  mkTestNode "r" "r" none none none none none (some "container") none none
    [mkTestNode "a" "r/a" none (some 0) none none none (some "leaf") none none [],
     mkTestNode "b" "r/b" none (some 1) none none none (some "leaf") none none []]

/-- A sibling-to-sibling edge offered to the layout adapter. -/
def w9edges : List GEdge := [createFlowEdge "r/a" "r/b"]

/-- A node with no index fields, a non-numeric name and `repeat = 5`. -/
def w10node : TreeNode :=
  mkTestNode "s" "p/s" none none none none (some 5) (some "collapsed") none none []

/-- Extract one numeric field of one sub-object of an optional summary,
defaulting to 0 (absent summaries and absent sub-objects contribute nothing
to a sum). -/
def statField (s : Option StatSummary) (pick : StatSummary → Option Stat)
    (f : Stat → Int) : Int :=
  ((s.bind pick).map f).getD 0

/-- Whether an optional summary carries at least one `self`/`total`
sub-object (what the `sumStats` loop records in `hasSelf`/`hasTotal`). -/
def hasAnyStats (s : Option StatSummary) : Bool :=
  (s.bind StatSummary.self).isSome || (s.bind StatSummary.total).isSome

/-! ## Theorems -/

theorem sumAccStep_fields (acc : SumAcc) (stats : Option StatSummary) :
    (sumAccStep acc stats).hasSelf = (acc.hasSelf || (stats.bind StatSummary.self).isSome) ∧
    (sumAccStep acc stats).hasTotal = (acc.hasTotal || (stats.bind StatSummary.total).isSome) ∧
    (sumAccStep acc stats).selfCount
      = acc.selfCount + statField stats StatSummary.self Stat.count ∧
    (sumAccStep acc stats).selfBytes
      = acc.selfBytes + statField stats StatSummary.self Stat.size_bytes ∧
    (sumAccStep acc stats).selfTrainable
      = acc.selfTrainable + statField stats StatSummary.self Stat.trainable ∧
    (sumAccStep acc stats).totalCount
      = acc.totalCount + statField stats StatSummary.total Stat.count ∧
    (sumAccStep acc stats).totalBytes
      = acc.totalBytes + statField stats StatSummary.total Stat.size_bytes ∧
    (sumAccStep acc stats).totalTrainable
      = acc.totalTrainable + statField stats StatSummary.total Stat.trainable := by
  unfold sumAccStep statField
  rcases hs : stats.bind StatSummary.self with _ | s1 <;>
    rcases ht : stats.bind StatSummary.total with _ | t1 <;>
      simp [hs, ht]

theorem sumStats_foldl (key : StatKey) (nodes : List TreeNode) (acc : SumAcc) :
    (nodes.foldl (fun a n => sumAccStep a (n.statsOf key)) acc).hasSelf
      = (acc.hasSelf || nodes.any fun n => ((n.statsOf key).bind StatSummary.self).isSome) ∧
    (nodes.foldl (fun a n => sumAccStep a (n.statsOf key)) acc).hasTotal
      = (acc.hasTotal || nodes.any fun n => ((n.statsOf key).bind StatSummary.total).isSome) ∧
    (nodes.foldl (fun a n => sumAccStep a (n.statsOf key)) acc).selfCount
      = acc.selfCount + (nodes.map fun m => statField (m.statsOf key) StatSummary.self Stat.count).sum ∧
    (nodes.foldl (fun a n => sumAccStep a (n.statsOf key)) acc).selfBytes
      = acc.selfBytes + (nodes.map fun m => statField (m.statsOf key) StatSummary.self Stat.size_bytes).sum ∧
    (nodes.foldl (fun a n => sumAccStep a (n.statsOf key)) acc).selfTrainable
      = acc.selfTrainable + (nodes.map fun m => statField (m.statsOf key) StatSummary.self Stat.trainable).sum ∧
    (nodes.foldl (fun a n => sumAccStep a (n.statsOf key)) acc).totalCount
      = acc.totalCount + (nodes.map fun m => statField (m.statsOf key) StatSummary.total Stat.count).sum ∧
    (nodes.foldl (fun a n => sumAccStep a (n.statsOf key)) acc).totalBytes
      = acc.totalBytes + (nodes.map fun m => statField (m.statsOf key) StatSummary.total Stat.size_bytes).sum ∧
    (nodes.foldl (fun a n => sumAccStep a (n.statsOf key)) acc).totalTrainable
      = acc.totalTrainable + (nodes.map fun m => statField (m.statsOf key) StatSummary.total Stat.trainable).sum := by
  induction nodes generalizing acc with
  | nil => simp
  | cons n ns ih =>
    obtain ⟨h1, h2, h3, h4, h5, h6, h7, h8⟩ := sumAccStep_fields acc (n.statsOf key)
    obtain ⟨g1, g2, g3, g4, g5, g6, g7, g8⟩ := ih (sumAccStep acc (n.statsOf key))
    simp only [List.foldl_cons, List.any_cons, List.map_cons, List.sum_cons]
    refine ⟨?_, ?_, ?_, ?_, ?_, ?_, ?_, ?_⟩
    · rw [g1, h1, Bool.or_assoc]
    · rw [g2, h2, Bool.or_assoc]
    · rw [g3, h3, add_assoc]
    · rw [g4, h4, add_assoc]
    · rw [g5, h5, add_assoc]
    · rw [g6, h6, add_assoc]
    · rw [g7, h7, add_assoc]
    · rw [g8, h8, add_assoc]

theorem statField_sum_zero (nodes : List TreeNode) (key : StatKey)
    (pick : StatSummary → Option Stat) (f : Stat → Int)
    (h : (nodes.any fun n => ((n.statsOf key).bind pick).isSome) = false) :
    (nodes.map fun m => statField (m.statsOf key) pick f).sum = 0 := by
  apply List.sum_eq_zero
  intro x hx
  rw [List.mem_map] at hx
  obtain ⟨m, hm, rfl⟩ := hx
  rw [List.any_eq_false] at h
  have hn := h m hm
  rcases hbind : (m.statsOf key).bind pick with _ | s
  · unfold statField
    rw [hbind]
    rfl
  · rw [hbind] at hn
    simp at hn

theorem sumStats_eq (nodes : List TreeNode) (key : StatKey) :
    sumStats nodes key =
      (if !(nodes.foldl (fun a n => sumAccStep a (n.statsOf key)) sumAccInit).hasSelf &&
          !(nodes.foldl (fun a n => sumAccStep a (n.statsOf key)) sumAccInit).hasTotal then
        none
      else
        some
          { self :=
              if (nodes.foldl (fun a n => sumAccStep a (n.statsOf key)) sumAccInit).hasSelf then
                some ⟨(nodes.foldl (fun a n => sumAccStep a (n.statsOf key)) sumAccInit).selfCount,
                  (nodes.foldl (fun a n => sumAccStep a (n.statsOf key)) sumAccInit).selfBytes,
                  (nodes.foldl (fun a n => sumAccStep a (n.statsOf key)) sumAccInit).selfTrainable⟩
              else none,
            total :=
              if (nodes.foldl (fun a n => sumAccStep a (n.statsOf key)) sumAccInit).hasTotal then
                some ⟨(nodes.foldl (fun a n => sumAccStep a (n.statsOf key)) sumAccInit).totalCount,
                  (nodes.foldl (fun a n => sumAccStep a (n.statsOf key)) sumAccInit).totalBytes,
                  (nodes.foldl (fun a n => sumAccStep a (n.statsOf key)) sumAccInit).totalTrainable⟩
              else none }) := rfl

theorem sumStats_isSome_iff (nodes : List TreeNode) (key : StatKey) :
    (sumStats nodes key).isSome = true ↔ ∃ m ∈ nodes, hasAnyStats (m.statsOf key) = true := by
  obtain ⟨h1, h2, _, _, _, _, _, _⟩ := sumStats_foldl key nodes sumAccInit
  rw [show sumAccInit.hasSelf = false from rfl, Bool.false_or] at h1
  rw [show sumAccInit.hasTotal = false from rfl, Bool.false_or] at h2
  rw [sumStats_eq]
  by_cases hS : (nodes.foldl (fun a n => sumAccStep a (n.statsOf key)) sumAccInit).hasSelf
  · rw [hS]
    simp only [Bool.not_true, Bool.false_and, Bool.false_eq_true, if_false, Option.isSome_some,
      true_iff]
    obtain ⟨m, hm, hbit⟩ := List.any_eq_true.mp (h1 ▸ hS)
    exact ⟨m, hm, by unfold hasAnyStats; rw [hbit]; rfl⟩
  · by_cases hT : (nodes.foldl (fun a n => sumAccStep a (n.statsOf key)) sumAccInit).hasTotal
    · rw [hT]
      simp only [Bool.not_true, Bool.and_false, Bool.false_eq_true, if_false, Option.isSome_some,
        true_iff]
      obtain ⟨m, hm, hbit⟩ := List.any_eq_true.mp (h2 ▸ hT)
      exact ⟨m, hm, by unfold hasAnyStats; rw [hbit]; simp⟩
    · rw [Bool.not_eq_true] at hS hT
      rw [hS, hT]
      simp only [Bool.not_false, Bool.and_self, if_true, Option.isSome_none,
        Bool.false_eq_true, false_iff]
      rintro ⟨m, hm, hany⟩
      unfold hasAnyStats at hany
      rw [Bool.or_eq_true] at hany
      rcases hany with hbit | hbit
      · have hthis : (nodes.any fun n => ((n.statsOf key).bind StatSummary.self).isSome) = true :=
          List.any_eq_true.mpr ⟨m, hm, hbit⟩
        rw [← h1, hS] at hthis
        exact Bool.false_ne_true hthis
      · have hthis : (nodes.any fun n => ((n.statsOf key).bind StatSummary.total).isSome) = true :=
          List.any_eq_true.mpr ⟨m, hm, hbit⟩
        rw [← h2, hT] at hthis
        exact Bool.false_ne_true hthis

theorem sumStats_statField (nodes : List TreeNode) (key : StatKey) :
    statField (sumStats nodes key) StatSummary.self Stat.count
      = (nodes.map fun m => statField (m.statsOf key) StatSummary.self Stat.count).sum ∧
    statField (sumStats nodes key) StatSummary.self Stat.size_bytes
      = (nodes.map fun m => statField (m.statsOf key) StatSummary.self Stat.size_bytes).sum ∧
    statField (sumStats nodes key) StatSummary.self Stat.trainable
      = (nodes.map fun m => statField (m.statsOf key) StatSummary.self Stat.trainable).sum ∧
    statField (sumStats nodes key) StatSummary.total Stat.count
      = (nodes.map fun m => statField (m.statsOf key) StatSummary.total Stat.count).sum ∧
    statField (sumStats nodes key) StatSummary.total Stat.size_bytes
      = (nodes.map fun m => statField (m.statsOf key) StatSummary.total Stat.size_bytes).sum ∧
    statField (sumStats nodes key) StatSummary.total Stat.trainable
      = (nodes.map fun m => statField (m.statsOf key) StatSummary.total Stat.trainable).sum := by
  obtain ⟨h1, h2, h3, h4, h5, h6, h7, h8⟩ := sumStats_foldl key nodes sumAccInit
  rw [show sumAccInit.hasSelf = false from rfl, Bool.false_or] at h1
  rw [show sumAccInit.hasTotal = false from rfl, Bool.false_or] at h2
  rw [show sumAccInit.selfCount = 0 from rfl, zero_add] at h3
  rw [show sumAccInit.selfBytes = 0 from rfl, zero_add] at h4
  rw [show sumAccInit.selfTrainable = 0 from rfl, zero_add] at h5
  rw [show sumAccInit.totalCount = 0 from rfl, zero_add] at h6
  rw [show sumAccInit.totalBytes = 0 from rfl, zero_add] at h7
  rw [show sumAccInit.totalTrainable = 0 from rfl, zero_add] at h8
  rw [sumStats_eq]
  by_cases hS : (nodes.foldl (fun a n => sumAccStep a (n.statsOf key)) sumAccInit).hasSelf <;>
    by_cases hT : (nodes.foldl (fun a n => sumAccStep a (n.statsOf key)) sumAccInit).hasTotal
  · rw [hS, hT]
    refine ⟨?_, ?_, ?_, ?_, ?_, ?_⟩ <;>
      simp only [Bool.not_true, Bool.false_and, Bool.false_eq_true, if_false, if_true,
        statField, Option.bind_some, Option.map_some, Option.getD_some] <;>
      assumption
  · rw [hS]
    rw [Bool.not_eq_true] at hT
    rw [hT]
    have hz := statField_sum_zero nodes key StatSummary.total
    have hTany : (nodes.any fun n => ((n.statsOf key).bind StatSummary.total).isSome) = false := by
      rw [← h2, hT]
    refine ⟨?_, ?_, ?_, ?_, ?_, ?_⟩ <;>
      simp only [Bool.not_true, Bool.not_false, Bool.false_and, Bool.and_false,
        Bool.false_eq_true, if_false, if_true, statField, Option.bind_some, Option.map_some,
        Option.getD_some, Option.bind_none, Option.map_none, Option.getD_none] <;>
      first
        | assumption
        | (exact (hz _ hTany).symm)
  · rw [hT]
    rw [Bool.not_eq_true] at hS
    rw [hS]
    have hz := statField_sum_zero nodes key StatSummary.self
    have hSany : (nodes.any fun n => ((n.statsOf key).bind StatSummary.self).isSome) = false := by
      rw [← h1, hS]
    refine ⟨?_, ?_, ?_, ?_, ?_, ?_⟩ <;>
      simp only [Bool.not_true, Bool.not_false, Bool.true_and, Bool.and_false, Bool.false_and,
        Bool.false_eq_true, if_false, if_true, statField, Option.bind_some, Option.map_some,
        Option.getD_some, Option.bind_none, Option.map_none, Option.getD_none] <;>
      first
        | assumption
        | (exact (hz _ hSany).symm)
  · rw [Bool.not_eq_true] at hS hT
    rw [hS, hT]
    have hzS := statField_sum_zero nodes key StatSummary.self
    have hzT := statField_sum_zero nodes key StatSummary.total
    have hSany : (nodes.any fun n => ((n.statsOf key).bind StatSummary.self).isSome) = false := by
      rw [← h1, hS]
    have hTany : (nodes.any fun n => ((n.statsOf key).bind StatSummary.total).isSome) = false := by
      rw [← h2, hT]
    refine ⟨?_, ?_, ?_, ?_, ?_, ?_⟩ <;>
      simp only [Bool.not_false, Bool.and_self, if_true, statField, Option.bind_none,
        Option.map_none, Option.getD_none] <;>
      first
        | (exact (hzS _ hSany).symm)
        | (exact (hzT _ hTany).symm)

theorem buildCollapsedNode_statsOf (group : List TreeNode) (parentPath : String)
    (key : StatKey) :
    (buildCollapsedNode group parentPath).statsOf key = sumStats group key := by
  cases key <;> rfl

/-- C1, counterexample: a run of two collapse-compatible siblings whose
`parameters` summaries are present but empty (`{}`); every member has a
`parameters` summary, yet the synthetic collapsed node has none, refuting
the claimed "present iff at least one member had that summary". -/
theorem claim1_counterexample :
    2 ≤ cg1.length ∧ (∀ b ∈ cg1.tail, collapseCompat cg1.headI b = true) ∧
    (∀ m ∈ cg1, (m.statsOf .parameters).isSome = true) ∧
    ((buildCollapsedNode cg1 "p").statsOf .parameters).isSome = false := by decide

/-- C1 (amended): for every run of two or more collapse-compatible sibling
nodes, the synthetic collapsed node's `parameters` and `buffers` totals are
the element-wise sums of the members' (`self` and `total` sub-objects, for
`count`/`size_bytes`/`trainable` alike); a summary is present on the
synthetic node iff at least one member's summary carries a `self` or
`total` sub-object (not merely a summary object, which may be empty). -/
theorem claim1_theorem (group : List TreeNode) (parentPath : String)
    (hlen : 2 ≤ group.length)
    (hcompat : ∀ b ∈ group.tail, collapseCompat group.headI b = true) :
    ∀ key : StatKey,
      (((buildCollapsedNode group parentPath).statsOf key).isSome = true ↔
        ∃ m ∈ group, hasAnyStats (m.statsOf key) = true) ∧
      statField ((buildCollapsedNode group parentPath).statsOf key) StatSummary.self Stat.count
        = (group.map fun m => statField (m.statsOf key) StatSummary.self Stat.count).sum ∧
      statField ((buildCollapsedNode group parentPath).statsOf key) StatSummary.self Stat.size_bytes
        = (group.map fun m => statField (m.statsOf key) StatSummary.self Stat.size_bytes).sum ∧
      statField ((buildCollapsedNode group parentPath).statsOf key) StatSummary.self Stat.trainable
        = (group.map fun m => statField (m.statsOf key) StatSummary.self Stat.trainable).sum ∧
      statField ((buildCollapsedNode group parentPath).statsOf key) StatSummary.total Stat.count
        = (group.map fun m => statField (m.statsOf key) StatSummary.total Stat.count).sum ∧
      statField ((buildCollapsedNode group parentPath).statsOf key) StatSummary.total Stat.size_bytes
        = (group.map fun m => statField (m.statsOf key) StatSummary.total Stat.size_bytes).sum ∧
      statField ((buildCollapsedNode group parentPath).statsOf key) StatSummary.total Stat.trainable
        = (group.map fun m => statField (m.statsOf key) StatSummary.total Stat.trainable).sum := by
  intro key
  rw [buildCollapsedNode_statsOf]
  obtain ⟨s1, s2, s3, s4, s5, s6⟩ := sumStats_statField group key
  exact ⟨sumStats_isSome_iff group key, s1, s2, s3, s4, s5, s6⟩

/-- C1, witness: the amended aggregation theorem evaluated on a concrete
two-member run with full statistics. -/
theorem claim1_witness :
    (2 ≤ wg1.length ∧ ∀ b ∈ wg1.tail, collapseCompat wg1.headI b = true) ∧
    ∀ key : StatKey,
      (((buildCollapsedNode wg1 "p").statsOf key).isSome = true ↔
        ∃ m ∈ wg1, hasAnyStats (m.statsOf key) = true) ∧
      statField ((buildCollapsedNode wg1 "p").statsOf key) StatSummary.self Stat.count
        = (wg1.map fun m => statField (m.statsOf key) StatSummary.self Stat.count).sum ∧
      statField ((buildCollapsedNode wg1 "p").statsOf key) StatSummary.self Stat.size_bytes
        = (wg1.map fun m => statField (m.statsOf key) StatSummary.self Stat.size_bytes).sum ∧
      statField ((buildCollapsedNode wg1 "p").statsOf key) StatSummary.self Stat.trainable
        = (wg1.map fun m => statField (m.statsOf key) StatSummary.self Stat.trainable).sum ∧
      statField ((buildCollapsedNode wg1 "p").statsOf key) StatSummary.total Stat.count
        = (wg1.map fun m => statField (m.statsOf key) StatSummary.total Stat.count).sum ∧
      statField ((buildCollapsedNode wg1 "p").statsOf key) StatSummary.total Stat.size_bytes
        = (wg1.map fun m => statField (m.statsOf key) StatSummary.total Stat.size_bytes).sum ∧
      statField ((buildCollapsedNode wg1 "p").statsOf key) StatSummary.total Stat.trainable
        = (wg1.map fun m => statField (m.statsOf key) StatSummary.total Stat.trainable).sum :=
  ⟨⟨by decide, by decide⟩, claim1_theorem wg1 "p" (by decide) (by decide)⟩

/-- C7: a sibling set with one `vision`-tagged and one `text`-tagged child
(and no connector-tagged child) under a non-mixture-of-experts parent
resolves to `parallel`; adding a `projector`-tagged third child makes
`resolveFlowMode` return `indexed` (in original order) instead. -/
theorem claim7_theorem :
    resolveFlowMode c7parent [c7vision, c7text] = FlowMode.parallel ∧
    resolveFlowMode c7parent [c7vision, c7text, c7proj]
      = FlowMode.indexed [c7vision, c7text, c7proj] := by decide

theorem segmentLoop_mem (node : TreeNode) (size e : Int) :
    ∀ fuel cur, ∀ s ∈ segmentLoop node size e fuel cur, ∃ a b, s = splitSegment node a b := by
  intro fuel
  induction fuel with
  | zero =>
    intro cur s hs
    simp [segmentLoop] at hs
  | succ n ih =>
    intro cur s hs
    rw [segmentLoop] at hs
    by_cases h : cur ≤ e
    · rw [if_pos h] at hs
      rcases List.mem_cons.mp hs with rfl | hs'
      · exact ⟨_, _, rfl⟩
      · exact ih _ s hs'
    · rw [if_neg h] at hs
      simp at hs

/-- C2, counterexample: splitting a collapsed node spanning `[0..15]` with 16
total parameters into two segments leaves the full 16-parameter summary on
each segment, so the segments' totals sum to 32, not to the node's 16 —
refuting the claimed per-segment aggregation rule. -/
theorem claim2_counterexample :
    (splitCollapsedNode cNode2 8).map
        (fun s => statField s.parameters StatSummary.total Stat.count) = [16, 16] ∧
    statField cNode2.parameters StatSummary.total Stat.count = 16 ∧
    ((splitCollapsedNode cNode2 8).map
        (fun s => statField s.parameters StatSummary.total Stat.count)).sum ≠
      statField cNode2.parameters StatSummary.total Stat.count := by decide

/-- C2 (amended): `splitCollapsedNode` spreads the original node into every
sub-range node, so each returned leaf or segment carries the original
collapsed node's `parameters` and `buffers` summaries unchanged (no
per-segment aggregation is performed). -/
theorem claim2_theorem (node : TreeNode) (size : Int) (s : TreeNode)
    (hs : s ∈ splitCollapsedNode node size) :
    s.parameters = node.parameters ∧ s.buffers = node.buffers := by
  unfold splitCollapsedNode at hs
  rcases h1 : splitStart node with _ | st <;> rw [h1] at hs
  · simp at hs
  rcases h2 : splitEnd node with _ | en <;> rw [h2] at hs
  · simp at hs
  dsimp only at hs
  by_cases hr : en - st + 1 ≤ size
  · rw [if_pos hr] at hs
    rw [List.mem_map] at hs
    obtain ⟨i, _, rfl⟩ := hs
    exact ⟨rfl, rfl⟩
  · rw [if_neg hr] at hs
    obtain ⟨a, b, rfl⟩ := segmentLoop_mem node size en _ _ s hs
    exact ⟨rfl, rfl⟩

/-- C2, witness: the stats-spread theorem evaluated at the first segment of
the `[0..15]` split. -/
theorem claim2_witness :
    (splitCollapsedNode cNode2 8).headI ∈ splitCollapsedNode cNode2 8 ∧
    ((splitCollapsedNode cNode2 8).headI.parameters = cNode2.parameters ∧
      (splitCollapsedNode cNode2 8).headI.buffers = cNode2.buffers) :=
  ⟨by decide, claim2_theorem cNode2 8 _ (by decide)⟩

theorem segmentLoop_ne_nil (node : TreeNode) (size e : Int) (fuel : Nat) (cur : Int)
    (hf : 1 ≤ fuel) (hc : cur ≤ e) : segmentLoop node size e fuel cur ≠ [] := by
  cases fuel with
  | zero => omega
  | succ n =>
    rw [segmentLoop, if_pos hc]
    exact List.cons_ne_nil _ _

theorem buildCollapsedNode_indexStart (g : List TreeNode) (p : String) :
    (buildCollapsedNode g p).indexStart = (groupRangeInfo g).map Prod.fst := rfl

theorem buildCollapsedNode_indexEnd (g : List TreeNode) (p : String) :
    (buildCollapsedNode g p).indexEnd = (groupRangeInfo g).map Prod.snd := rfl

theorem buildCollapsedNode_repeat (g : List TreeNode) (p : String) :
    (buildCollapsedNode g p).repeat_
      = some (g.foldl (fun sum node => sum + resolveRepeatCount node) 0) := rfl

theorem buildCollapsedNode_name (g : List TreeNode) (p : String) :
    (buildCollapsedNode g p).name
      = (match groupRangeInfo g with
        | some (s, e) => toString s ++ ".." ++ toString e
        | none => g.headI.name) := rfl

theorem buildCollapsedNode_path (g : List TreeNode) (p : String) :
    (buildCollapsedNode g p).path
      = p ++ "::stack:" ++
        (match groupRangeInfo g with
        | some (s, e) => "[" ++ toString s ++ "-" ++ toString e ++ "]"
        | none => g.headI.name) := rfl

/-- C3, counterexample: a run failing the contiguity check (indices 0 and 2)
still produces a collapsed node with `repeat = 2`, and `splitCollapsedNode`
resolves the span `0..1` from that `repeat` fallback — expanding it yields
two children, not none. -/
theorem claim3_counterexample :
    (∀ b ∈ cg3.tail, collapseCompat cg3.headI b = true) ∧
    groupRangeInfo cg3 = none ∧
    (buildCollapsedNode cg3 "p").indexStart = none ∧
    (buildCollapsedNode cg3 "p").indexEnd = none ∧
    splitCollapsedNode (buildCollapsedNode cg3 "p") 8 ≠ [] ∧
    (splitCollapsedNode (buildCollapsedNode cg3 "p") 8).length = 2 := by decide

/-- C3 (amended): `splitCollapsedNode` returns the empty array exactly when
the `start`/`end` resolution chain (explicit index fields, then a
`"a..b"`-shaped name, then the truthy-`repeat` fallback) fails or yields an
empty span.  A synthetic node from a contiguity-failed run still aggregates
stats, and — because its `repeat` is the sum of the members' repeat counts —
it resolves the span `0..repeat-1` whenever that sum is positive and its
name is not range-shaped, so expanding it does produce children. -/
theorem claim3_theorem :
    (∀ (node : TreeNode) (size : Int), 1 ≤ size →
      (splitCollapsedNode node size = [] ↔
        splitStart node = none ∨ splitEnd node = none ∨
          ∃ s e, splitStart node = some s ∧ splitEnd node = some e ∧ e < s)) ∧
    (∀ (group : List TreeNode) (parentPath : String) (size : Int),
      2 ≤ group.length →
      (∀ b ∈ group.tail, collapseCompat group.headI b = true) →
      groupRangeInfo group = none →
      parseRangeFromName group.headI.name = none →
      1 ≤ group.foldl (fun sum node => sum + resolveRepeatCount node) 0 →
      1 ≤ size →
      splitCollapsedNode (buildCollapsedNode group parentPath) size ≠ []) := by
  constructor
  · intro node size hsize
    rcases h1 : splitStart node with _ | st
    · refine iff_of_true ?_ (Or.inl rfl)
      unfold splitCollapsedNode
      rw [h1]
    rcases h2 : splitEnd node with _ | en
    · refine iff_of_true ?_ (Or.inr (Or.inl rfl))
      unfold splitCollapsedNode
      rw [h1, h2]
    by_cases hlt : en < st
    · refine iff_of_true ?_ (Or.inr (Or.inr ⟨st, en, rfl, rfl, hlt⟩))
      unfold splitCollapsedNode
      rw [h1, h2]
      dsimp only
      rw [if_pos (by omega : en - st + 1 ≤ size)]
      rw [show (en - st + 1).toNat = 0 by omega]
      rfl
    · refine iff_of_false ?_ ?_
      · unfold splitCollapsedNode
        rw [h1, h2]
        dsimp only
        by_cases hr : en - st + 1 ≤ size
        · rw [if_pos hr]
          intro hcontra
          rw [List.map_eq_nil_iff, List.range_eq_nil] at hcontra
          omega
        · rw [if_neg hr]
          exact segmentLoop_ne_nil node size en _ st (by omega) (by omega)
      · rintro (h | h | ⟨s, e, hsx, hex, hlt'⟩)
        · exact Option.noConfusion h
        · exact Option.noConfusion h
        · injection hsx with hsx'
          injection hex with hex'
          omega
  · intro group parentPath size hlen hcompat hnone hparse hrep hsize
    have hIS : (buildCollapsedNode group parentPath).indexStart = none := by
      rw [buildCollapsedNode_indexStart, hnone]
      rfl
    have hNM : parseRangeFromName (buildCollapsedNode group parentPath).name = none := by
      rw [buildCollapsedNode_name, hnone]
      exact hparse
    have hRP : (buildCollapsedNode group parentPath).repeat_
        = some (group.foldl (fun sum node => sum + resolveRepeatCount node) 0) :=
      buildCollapsedNode_repeat group parentPath
    have hrep0 : group.foldl (fun sum node => sum + resolveRepeatCount node) 0 ≠ 0 := by
      omega
    have hss : splitStart (buildCollapsedNode group parentPath) = some 0 := by
      unfold splitStart
      rw [hIS, hNM, hRP]
      simp only [Option.getD_some]
      rw [if_pos hrep0]
      rfl
    have hIE : (buildCollapsedNode group parentPath).indexEnd = none := by
      rw [buildCollapsedNode_indexEnd, hnone]
      rfl
    have hse : splitEnd (buildCollapsedNode group parentPath)
        = some (group.foldl (fun sum node => sum + resolveRepeatCount node) 0 - 1) := by
      unfold splitEnd
      rw [hIE, hNM, hRP]
      simp only [Option.getD_some]
      rw [if_pos hrep0]
      rfl
    unfold splitCollapsedNode
    rw [hss, hse]
    dsimp only
    by_cases hr :
        group.foldl (fun sum node => sum + resolveRepeatCount node) 0 - 1 - 0 + 1 ≤ size
    · rw [if_pos hr]
      intro hcontra
      rw [List.map_eq_nil_iff, List.range_eq_nil] at hcontra
      omega
    · rw [if_neg hr]
      exact segmentLoop_ne_nil _ size _ _ 0 (by omega) (by omega)

/-- C3, witness: the empty-split characterization evaluated at the concrete
`[0..15]` collapsed node, and the repeat-fallback split evaluated at the
concrete contiguity-failed run. -/
theorem claim3_witness :
    (splitCollapsedNode cNode2 8 = [] ↔
      splitStart cNode2 = none ∨ splitEnd cNode2 = none ∨
        ∃ s e, splitStart cNode2 = some s ∧ splitEnd cNode2 = some e ∧ e < s) ∧
    splitCollapsedNode (buildCollapsedNode cg3 "p") 8 ≠ [] :=
  ⟨claim3_theorem.1 cNode2 8 (by decide),
    claim3_theorem.2 cg3 "p" 8 (by decide) (by decide) (by decide) (by decide)
      (by decide) (by decide)⟩

theorem contiguousScan_fix (rs : List IndexRange) (x : Int) :
    rs.foldl
      (fun st r =>
        if !st.1 then st
        else if r.start ≠ st.2 then (false, st.2)
        else (true, r.endIdx + 1))
      (false, x) = (false, x) := by
  induction rs with
  | nil => rfl
  | cons r rest ih => simpa using ih

theorem contiguousScan_cons (prev : Int) (r : IndexRange) (rest : List IndexRange) :
    contiguousScan prev (r :: rest)
      = if r.start = prev then contiguousScan (r.endIdx + 1) rest else (false, prev) := by
  unfold contiguousScan
  rw [List.foldl_cons]
  by_cases h : r.start = prev
  · rw [if_pos h]
    have : (if !(true, prev).1 then (true, prev)
        else if r.start ≠ (true, prev).2 then (false, (true, prev).2)
        else (true, r.endIdx + 1)) = (true, r.endIdx + 1) := by
      simp [h]
    rw [this]
  · rw [if_neg h]
    have : (if !(true, prev).1 then (true, prev)
        else if r.start ≠ (true, prev).2 then (false, (true, prev).2)
        else (true, r.endIdx + 1)) = (false, prev) := by
      simp [h]
    rw [this]
    exact contiguousScan_fix rest prev

theorem contiguousScan_true_iff (rs : List IndexRange) : ∀ prev : Int,
    ((contiguousScan prev rs).1 = true ↔
      (∀ r0 ∈ rs.head?, r0.start = prev) ∧
        List.Chain' (fun a b => b.start = a.endIdx + 1) rs) := by
  induction rs with
  | nil =>
    intro prev
    simp [contiguousScan]
  | cons r rest ih =>
    intro prev
    rw [contiguousScan_cons]
    by_cases h : r.start = prev
    · rw [if_pos h, ih (r.endIdx + 1)]
      simp only [List.head?_cons, Option.mem_def, Option.some.injEq, List.chain'_cons']
      constructor
      · rintro ⟨hh, hc⟩
        exact ⟨fun r0 hr0 => hr0 ▸ h, fun b hb => hh b hb, hc⟩
      · rintro ⟨_, hh, hc⟩
        exact ⟨hh, hc⟩
    · rw [if_neg h]
      simp only [List.head?_cons, Option.mem_def, Option.some.injEq]
      constructor
      · intro hfalse
        exact absurd hfalse (by simp)
      · rintro ⟨hh, _⟩
        exact absurd (hh r rfl) h

theorem contiguousScan_snd (rs : List IndexRange) : ∀ prev : Int,
    (contiguousScan prev rs).1 = true →
    (contiguousScan prev rs).2
      = (match rs.getLast? with
        | some rl => rl.endIdx + 1
        | none => prev) := by
  induction rs with
  | nil =>
    intro prev _
    rfl
  | cons r rest ih =>
    intro prev htrue
    rw [contiguousScan_cons] at htrue ⊢
    by_cases h : r.start = prev
    · rw [if_pos h] at htrue ⊢
      rw [ih (r.endIdx + 1) htrue]
      cases rest with
      | nil => rfl
      | cons r2 rest2 =>
        rw [List.getLast?_cons_cons]
        rcases hl : (r2 :: rest2).getLast? with _ | rl
        · rw [List.getLast?_eq_none_iff] at hl
          exact absurd hl (by simp)
        · rfl
    · rw [if_neg h] at htrue
      exact absurd htrue (by simp)

theorem all_isSome_exists (l : List (Option IndexRange)) :
    (l.all (·.isSome)) = true ↔ ∃ rs : List IndexRange, l = rs.map some := by
  induction l with
  | nil => exact ⟨fun _ => ⟨[], rfl⟩, fun _ => rfl⟩
  | cons o rest ih =>
    rw [List.all_cons, Bool.and_eq_true, ih]
    constructor
    · rintro ⟨ho, rs, rfl⟩
      rcases o with _ | r
      · simp at ho
      · exact ⟨r :: rs, rfl⟩
    · rintro ⟨rs, hrs⟩
      cases rs with
      | nil => exact absurd hrs (by simp)
      | cons r rs' =>
        rw [List.map_cons] at hrs
        injection hrs with h1 h2
        exact ⟨h1 ▸ rfl, rs', h2⟩

theorem map_getD_map_some (rs : List IndexRange) :
    (rs.map some).map (fun o => o.getD ⟨0, 0⟩) = rs := by
  induction rs with
  | nil => rfl
  | cons r rest ih => simp [ih]

theorem map_some_inj : ∀ (a b : List IndexRange), a.map some = b.map some → a = b
  | [], [], _ => rfl
  | [], _ :: _, h => by simp at h
  | _ :: _, [], h => by simp at h
  | x :: xs, y :: ys, h => by
    rw [List.map_cons, List.map_cons] at h
    injection h with h1 h2
    injection h1 with h1
    rw [h1, map_some_inj xs ys h2]

theorem groupRangeInfo_some_iff (group : List TreeNode) (hne : group ≠ []) (s e : Int) :
    groupRangeInfo group = some (s, e) ↔
      ∃ r0 rs rl, group.map resolveIndexRange = (r0 :: rs).map some ∧
        List.Chain' (fun a b => b.start = a.endIdx + 1) (r0 :: rs) ∧
        (r0 :: rs).getLast? = some rl ∧ s = r0.start ∧ e = rl.endIdx := by
  rcases hmap : group.map resolveIndexRange with _ | ⟨o, os⟩
  · rw [List.map_eq_nil_iff] at hmap
    exact absurd hmap hne
  rcases o with _ | r0
  · have hg : groupRangeInfo group = none := by
      unfold groupRangeInfo
      rw [hmap]
    rw [hg]
    constructor
    · intro h
      exact Option.noConfusion h
    · rintro ⟨r0, rs, rl, hmm, -, -, -, -⟩
      rw [List.map_cons] at hmm
      injection hmm with h1 _
      exact Option.noConfusion h1
  · have hg : groupRangeInfo group
        = (if (some r0 :: os).all (·.isSome) then
            (if (contiguousScan r0.start ((some r0 :: os).map (fun o => o.getD ⟨0, 0⟩))).1 then
              some (r0.start,
                (contiguousScan r0.start ((some r0 :: os).map (fun o => o.getD ⟨0, 0⟩))).2 - 1)
            else none)
          else none) := by
      unfold groupRangeInfo
      rw [hmap]
    by_cases hall : ((some r0 :: os).all (·.isSome)) = true
    · obtain ⟨rs0, hrs0⟩ := (all_isSome_exists _).mp hall
      cases rs0 with
      | nil => exact absurd hrs0 (by simp)
      | cons r0' rs' =>
        rw [List.map_cons] at hrs0
        injection hrs0 with hh ht
        injection hh with hh
        subst hh
        have hgd : (some r0 :: os).map (fun o => o.getD ⟨0, 0⟩) = r0 :: rs' := by
          have : (some r0 :: os) = (r0 :: rs').map some := by
            rw [List.map_cons, ht]
          rw [this]
          exact map_getD_map_some (r0 :: rs')
        rw [hgd] at hg
        rw [hg, if_pos hall]
        by_cases hscan : (contiguousScan r0.start (r0 :: rs')).1 = true
        · rw [if_pos hscan]
          obtain ⟨rl, hrl⟩ : ∃ rl, (r0 :: rs').getLast? = some rl := by
            rcases hl : (r0 :: rs').getLast? with _ | rl
            · rw [List.getLast?_eq_none_iff] at hl
              exact absurd hl (by simp)
            · exact ⟨rl, rfl⟩
          have hsnd := contiguousScan_snd (r0 :: rs') r0.start hscan
          rw [hrl] at hsnd
          dsimp only at hsnd
          constructor
          · intro hinj
            injection hinj with hpair
            injection hpair with hps hpe
            refine ⟨r0, rs', rl, by rw [List.map_cons, ht], ?_, hrl, hps.symm, ?_⟩
            · exact ((contiguousScan_true_iff (r0 :: rs') r0.start).mp hscan).2
            · rw [← hpe, hsnd]
              omega
          · rintro ⟨r0₂, rs₂, rl₂, hmap₂, hchain₂, hlast₂, hs, he⟩
            rw [List.map_cons] at hmap₂
            injection hmap₂ with hh₂ ht₂
            injection hh₂ with hh₂
            have hrs₂ : rs₂ = rs' := map_some_inj rs₂ rs' (by rw [← ht₂, ht])
            subst hh₂
            subst hrs₂
            rw [hrl] at hlast₂
            injection hlast₂ with hlast₂
            subst hlast₂
            rw [hs, he, hsnd]
            congr 1
            ext
            · rfl
            · omega
        · rw [if_neg hscan]
          constructor
          · intro h
            exact Option.noConfusion h
          · rintro ⟨r0₂, rs₂, rl₂, hmap₂, hchain₂, hlast₂, hs, he⟩
            rw [List.map_cons] at hmap₂
            injection hmap₂ with hh₂ ht₂
            injection hh₂ with hh₂
            have hrs₂ : rs₂ = rs' := map_some_inj rs₂ rs' (by rw [← ht₂, ht])
            subst hh₂
            subst hrs₂
            have hsc₂ : (contiguousScan r0.start (r0 :: rs₂)).1 = true :=
              (contiguousScan_true_iff (r0 :: rs₂) r0.start).mpr
                ⟨fun x hx => by
                  rw [List.head?_cons, Option.mem_def] at hx
                  injection hx with hx
                  rw [← hx], hchain₂⟩
            exact absurd hsc₂ hscan
    · rw [hg, if_neg hall]
      constructor
      · intro h
        exact Option.noConfusion h
      · rintro ⟨r0₂, rs₂, rl₂, hmap₂, -, -, -, -⟩
        have : ((some r0 :: os).all (·.isSome)) = true :=
          (all_isSome_exists _).mpr ⟨r0₂ :: rs₂, hmap₂⟩
        exact absurd this hall

/-- C4, counterexample: for the contiguous run over indices 0 and 1 the
synthetic node's path label is `[0-1]`, not the claimed `0..1` (the
`start..end` string is the node's `name`, not its path label). -/
theorem claim4_counterexample :
    (∀ b ∈ cg4.tail, collapseCompat cg4.headI b = true) ∧
    groupRangeInfo cg4 = some (0, 1) ∧
    (buildCollapsedNode cg4 "p").name = "0..1" ∧
    (buildCollapsedNode cg4 "p").path = "p::stack:[0-1]" ∧
    (buildCollapsedNode cg4 "p").path ≠ "p" ++ "::stack:" ++ "0..1" := by decide

/-- C4 (amended): every synthetic collapsed node's path is
`<parentPath>::stack:<label>`, where the label is the bracketed range
`[start-end]` (while the node's `name` is `start..end`) when all run
members resolve contiguous, monotonically increasing index ranges (no
gaps, no overlap), and otherwise the first member's name. -/
theorem claim4_theorem (group : List TreeNode) (parentPath : String)
    (h2 : 2 ≤ group.length)
    (hcompat : ∀ b ∈ group.tail, collapseCompat group.headI b = true) :
    (∀ s e, groupRangeInfo group = some (s, e) →
      (buildCollapsedNode group parentPath).path
        = parentPath ++ "::stack:" ++ ("[" ++ toString s ++ "-" ++ toString e ++ "]") ∧
      (buildCollapsedNode group parentPath).name = toString s ++ ".." ++ toString e) ∧
    (groupRangeInfo group = none →
      (buildCollapsedNode group parentPath).path
        = parentPath ++ "::stack:" ++ group.headI.name ∧
      (buildCollapsedNode group parentPath).name = group.headI.name) ∧
    (∀ s e, groupRangeInfo group = some (s, e) ↔
      ∃ r0 rs rl, group.map resolveIndexRange = (r0 :: rs).map some ∧
        List.Chain' (fun a b => b.start = a.endIdx + 1) (r0 :: rs) ∧
        (r0 :: rs).getLast? = some rl ∧ s = r0.start ∧ e = rl.endIdx) := by
  have hne : group ≠ [] := by
    intro h
    rw [h] at h2
    simp at h2
  refine ⟨?_, ?_, fun s e => groupRangeInfo_some_iff group hne s e⟩
  · intro s e h
    constructor
    · rw [buildCollapsedNode_path, h]
    · rw [buildCollapsedNode_name, h]
  · intro h
    constructor
    · rw [buildCollapsedNode_path, h]
    · rw [buildCollapsedNode_name, h]

/-- C4, witness: the amended path/name/contiguity theorem evaluated on the
concrete contiguous run over indices 0 and 1. -/
theorem claim4_witness :
    (2 ≤ cg4.length ∧ ∀ b ∈ cg4.tail, collapseCompat cg4.headI b = true) ∧
    ((∀ s e, groupRangeInfo cg4 = some (s, e) →
      (buildCollapsedNode cg4 "p").path
        = "p" ++ "::stack:" ++ ("[" ++ toString s ++ "-" ++ toString e ++ "]") ∧
      (buildCollapsedNode cg4 "p").name = toString s ++ ".." ++ toString e) ∧
    (groupRangeInfo cg4 = none →
      (buildCollapsedNode cg4 "p").path = "p" ++ "::stack:" ++ cg4.headI.name ∧
      (buildCollapsedNode cg4 "p").name = cg4.headI.name) ∧
    (∀ s e, groupRangeInfo cg4 = some (s, e) ↔
      ∃ r0 rs rl, cg4.map resolveIndexRange = (r0 :: rs).map some ∧
        List.Chain' (fun a b => b.start = a.endIdx + 1) (r0 :: rs) ∧
        (r0 :: rs).getLast? = some rl ∧ s = r0.start ∧ e = rl.endIdx)) :=
  ⟨⟨by decide, by decide⟩, claim4_theorem cg4 "p" (by decide) (by decide)⟩

/-- C5: a collapsed node with explicit index span `[0..31]` splits with
`splitSize = 8` into exactly the four segments `[0..7]`, `[8..15]`,
`[16..23]`, `[24..31]`, each with `repeat = 8`, and with `splitSize = 40`
into 32 individual leaves with `repeat = 1` and indices `0` through `31`. -/
theorem claim5_theorem (node : TreeNode) (h1 : node.indexStart = some 0)
    (h2 : node.indexEnd = some 31) :
    (splitCollapsedNode node 8).map
        (fun s => (s.indexStart, s.indexEnd, s.repeat_, s.kind))
      = [(some 0, some 7, some 8, some "collapsed"),
         (some 8, some 15, some 8, some "collapsed"),
         (some 16, some 23, some 8, some "collapsed"),
         (some 24, some 31, some 8, some "collapsed")] ∧
    (splitCollapsedNode node 40).map
        (fun s => (s.index, s.indexStart, s.indexEnd, s.repeat_, s.kind))
      = (List.range 32).map fun i =>
          (some (Int.ofNat i), some (Int.ofNat i), some (Int.ofNat i),
            some 1, some "leaf") := by
  have hs : splitStart node = some 0 := by
    unfold splitStart
    rw [h1]
    rfl
  have he : splitEnd node = some 31 := by
    unfold splitEnd
    rw [h2]
    rfl
  constructor
  · unfold splitCollapsedNode
    rw [hs, he]
    rfl
  · unfold splitCollapsedNode
    rw [hs, he]
    rfl

/-- C5, witness: the split-inverse theorem evaluated at a concrete
`[0..31]` collapsed node. -/
theorem claim5_witness :
    (w5node.indexStart = some 0 ∧ w5node.indexEnd = some 31) ∧
    ((splitCollapsedNode w5node 8).map
        (fun s => (s.indexStart, s.indexEnd, s.repeat_, s.kind))
      = [(some 0, some 7, some 8, some "collapsed"),
         (some 8, some 15, some 8, some "collapsed"),
         (some 16, some 23, some 8, some "collapsed"),
         (some 24, some 31, some 8, some "collapsed")] ∧
    (splitCollapsedNode w5node 40).map
        (fun s => (s.index, s.indexStart, s.indexEnd, s.repeat_, s.kind))
      = (List.range 32).map fun i =>
          (some (Int.ofNat i), some (Int.ofNat i), some (Int.ofNat i),
            some 1, some "leaf")) :=
  ⟨⟨rfl, rfl⟩, claim5_theorem w5node rfl rfl⟩

theorem segmentLoop_stop (node : TreeNode) (size e : Int) :
    ∀ (fuel : Nat) (cur : Int), ¬ cur ≤ e → segmentLoop node size e fuel cur = [] := by
  intro fuel cur hc
  cases fuel with
  | zero => rfl
  | succ n => rw [segmentLoop, if_neg hc]

theorem segmentLoop_spec (node : TreeNode) (size e : Int) (hsize : 1 ≤ size) :
    ∀ (fuel : Nat) (cur : Int), cur ≤ e → (e - cur + 1).toNat ≤ fuel →
      segmentLoop node size e fuel cur ≠ [] ∧
      (segmentLoop node size e fuel cur).head?.map TreeNode.indexStart = some (some cur) ∧
      ((segmentLoop node size e fuel cur).getLast?).map TreeNode.indexEnd = some (some e) ∧
      (∀ s ∈ segmentLoop node size e fuel cur, ∃ a b,
          s = splitSegment node a b ∧ a ≤ b ∧ b - a + 1 ≤ size) ∧
      List.Chain' (fun s t => t.indexStart = (s.indexEnd).map (· + 1))
        (segmentLoop node size e fuel cur) := by
  intro fuel
  induction fuel with
  | zero =>
    intro cur hc hf
    exfalso
    omega
  | succ n ih =>
    intro cur hc hf
    rw [segmentLoop, if_pos hc]
    by_cases hnext : cur + size ≤ e
    · have hrec := ih (cur + size) hnext (by omega)
      obtain ⟨hne, hhead, hlast, hmem, hchain⟩ := hrec
      rw [show min e (cur + size - 1) = cur + size - 1 from by omega]
      refine ⟨List.cons_ne_nil _ _, rfl, ?_, ?_, ?_⟩
      · cases hrest : segmentLoop node size e n (cur + size) with
        | nil => exact absurd hrest hne
        | cons r rs =>
          rw [List.getLast?_cons_cons]
          rw [hrest] at hlast
          exact hlast
      · intro s hs
        rcases List.mem_cons.mp hs with rfl | hs'
        · exact ⟨cur, cur + size - 1, rfl, by omega, by omega⟩
        · exact hmem s hs'
      · rw [List.chain'_cons']
        refine ⟨?_, hchain⟩
        intro t ht
        cases hrest : segmentLoop node size e n (cur + size) with
        | nil => exact absurd hrest hne
        | cons r rs =>
          rw [hrest, List.head?_cons, Option.mem_def] at ht
          injection ht with ht
          subst ht
          rw [hrest, List.head?_cons] at hhead
          have hri : r.indexStart = some (cur + size) := by
            injection hhead
          rw [hri]
          nth_rewrite 1 [show cur + size = cur + size - 1 + 1 from by omega]
          rfl
    · rw [segmentLoop_stop node size e n (cur + size) hnext]
      rw [show min e (cur + size - 1) = e from by omega]
      refine ⟨List.cons_ne_nil _ _, rfl, rfl, ?_, ?_⟩
      · intro s hs
        rcases List.mem_cons.mp hs with rfl | hs'
        · exact ⟨cur, e, rfl, by omega, by omega⟩
        · simp at hs'
      · exact List.chain'_singleton _

/-- C10: when a collapsed node exposes neither `indexStart`/`indexEnd` nor a
`"a..b"`-shaped name but its `repeat` is a positive number `r`,
`splitCollapsedNode` resolves the span `0..r-1`: it returns `r` individual
leaves (indices `0..r-1`, `repeat = 1`) when `r ≤ splitSize`, and otherwise
contiguous adjacent segments of at most `splitSize` elements covering
`0..r-1` — never the empty array. -/
theorem claim10_theorem (node : TreeNode) (size r : Int)
    (hIS : node.indexStart = none) (hIE : node.indexEnd = none)
    (hname : parseRangeFromName node.name = none)
    (hrep : node.repeat_ = some r) (hr : 1 ≤ r) (hsize : 1 ≤ size) :
    splitCollapsedNode node size ≠ [] ∧
    (r ≤ size →
      (splitCollapsedNode node size).map
          (fun s => (s.index, s.indexStart, s.indexEnd, s.repeat_, s.kind))
        = (List.range r.toNat).map fun i =>
            (some (Int.ofNat i), some (Int.ofNat i), some (Int.ofNat i),
              some 1, some "leaf")) ∧
    (size < r →
      (splitCollapsedNode node size).head?.map TreeNode.indexStart = some (some 0) ∧
      ((splitCollapsedNode node size).getLast?).map TreeNode.indexEnd
        = some (some (r - 1)) ∧
      (∀ s ∈ splitCollapsedNode node size, ∃ a b,
          s.indexStart = some a ∧ s.indexEnd = some b ∧
          s.repeat_ = some (b - a + 1) ∧ s.kind = some "collapsed" ∧
          a ≤ b ∧ b - a + 1 ≤ size) ∧
      List.Chain' (fun s t => t.indexStart = (s.indexEnd).map (· + 1))
        (splitCollapsedNode node size)) := by
  have hr0 : r ≠ 0 := by omega
  have hs : splitStart node = some 0 := by
    unfold splitStart
    rw [hIS, hname, hrep]
    simp only [Option.getD_some]
    rw [if_pos hr0]
    rfl
  have he : splitEnd node = some (r - 1) := by
    unfold splitEnd
    rw [hIE, hname, hrep]
    simp only [Option.getD_some]
    rw [if_pos hr0]
    rfl
  have hsplit : splitCollapsedNode node size
      = (if r - 1 - 0 + 1 ≤ size then
          (List.range (r - 1 - 0 + 1).toNat).map fun i => splitLeaf node (0 + Int.ofNat i)
        else segmentLoop node size (r - 1) (r - 1 - 0 + 1).toNat 0) := by
    unfold splitCollapsedNode
    rw [hs, he]
  refine ⟨?_, ?_, ?_⟩
  · rw [hsplit]
    by_cases hc : r - 1 - 0 + 1 ≤ size
    · rw [if_pos hc]
      intro hcontra
      rw [List.map_eq_nil_iff, List.range_eq_nil] at hcontra
      omega
    · rw [if_neg hc]
      exact (segmentLoop_spec node size (r - 1) hsize _ 0 (by omega) (by omega)).1
  · intro hle
    rw [hsplit, if_pos (by omega)]
    rw [List.map_map]
    rw [show r - 1 - 0 + 1 = r from by omega]
    apply List.map_congr_left
    intro i _
    simp only [Function.comp_apply]
    rw [show (0 : Int) + Int.ofNat i = Int.ofNat i from by omega]
    rfl
  · intro hlt
    rw [hsplit, if_neg (by omega)]
    obtain ⟨hne, hhead, hlast, hmem, hchain⟩ :=
      segmentLoop_spec node size (r - 1) hsize (r - 1 - 0 + 1).toNat 0 (by omega) (by omega)
    refine ⟨hhead, hlast, ?_, hchain⟩
    intro s hsx
    obtain ⟨a, b, rfl, hab, hbs⟩ := hmem s hsx
    exact ⟨a, b, rfl, rfl, rfl, rfl, hab, hbs⟩

/-- C10, witness: the repeat-fallback theorem evaluated at a concrete node
with `repeat = 5` and split size 8 (the leaf case). -/
theorem claim10_witness :
    (w10node.indexStart = none ∧ w10node.indexEnd = none ∧
      parseRangeFromName w10node.name = none ∧ w10node.repeat_ = some 5) ∧
    splitCollapsedNode w10node 8 ≠ [] ∧
    ((5 : Int) ≤ 8 →
      (splitCollapsedNode w10node 8).map
          (fun s => (s.index, s.indexStart, s.indexEnd, s.repeat_, s.kind))
        = (List.range (5 : Int).toNat).map fun i =>
            (some (Int.ofNat i), some (Int.ofNat i), some (Int.ofNat i),
              some 1, some "leaf")) ∧
    ((8 : Int) < 5 →
      (splitCollapsedNode w10node 8).head?.map TreeNode.indexStart = some (some 0) ∧
      ((splitCollapsedNode w10node 8).getLast?).map TreeNode.indexEnd
        = some (some ((5 : Int) - 1)) ∧
      (∀ s ∈ splitCollapsedNode w10node 8, ∃ a b,
          s.indexStart = some a ∧ s.indexEnd = some b ∧
          s.repeat_ = some (b - a + 1) ∧ s.kind = some "collapsed" ∧
          a ≤ b ∧ b - a + 1 ≤ 8) ∧
      List.Chain' (fun s t => t.indexStart = (s.indexEnd).map (· + 1))
        (splitCollapsedNode w10node 8)) :=
  ⟨⟨rfl, rfl, rfl, rfl⟩,
    claim10_theorem w10node 8 5 rfl rfl rfl rfl (by decide) (by decide)⟩

/-- C9: every edge included in the list handed to the layout algorithm (the
filtered build edges plus the filtered synthesized parallel-alignment
edges) has no endpoint that is an ancestor of the other according to the
`isAncestor` walk over the parent index built from the layout root. -/
theorem claim9_theorem (edges : List GEdge) (root : TreeNode) (e : GEdge)
    (he : e ∈ elkEdgeList edges root) :
    isAncestor e.source e.target (parentIndexWalk root none) = false ∧
    isAncestor e.target e.source (parentIndexWalk root none) = false := by
  unfold elkEdgeList at he
  dsimp only at he
  rcases List.mem_append.mp he with h | h <;>
  · rw [List.mem_filter] at h
    obtain ⟨-, hkeep⟩ := h
    rw [Bool.and_eq_true, Bool.not_eq_true', Bool.not_eq_true'] at hkeep
    exact ⟨hkeep.1, hkeep.2⟩

/-- C9, witness: the ancestor-exclusion theorem evaluated at a concrete
sibling-to-sibling flow edge that survives the filter. -/
theorem claim9_witness :
    createFlowEdge "r/a" "r/b" ∈ elkEdgeList w9edges w9root ∧
    (isAncestor (createFlowEdge "r/a" "r/b").source (createFlowEdge "r/a" "r/b").target
        (parentIndexWalk w9root none) = false ∧
      isAncestor (createFlowEdge "r/a" "r/b").target (createFlowEdge "r/a" "r/b").source
        (parentIndexWalk w9root none) = false) :=
  ⟨by decide, claim9_theorem w9edges w9root (createFlowEdge "r/a" "r/b") (by decide)⟩

theorem filter_length_all {α : Type} (p : α → Bool) :
    ∀ l : List α, (l.filter p).length = l.length → ∀ a ∈ l, p a = true := by
  intro l
  induction l with
  | nil => simp
  | cons a t ih =>
    intro h b hb
    rw [List.filter_cons] at h
    by_cases hpa : p a = true
    · rw [if_pos hpa] at h
      rw [List.length_cons, List.length_cons] at h
      rcases List.mem_cons.mp hb with rfl | hb'
      · exact hpa
      · exact ih (by omega) b hb'
    · rw [if_neg hpa] at h
      have := List.length_filter_le p t
      rw [List.length_cons] at h
      omega

theorem tagChildren_length : ∀ (cs : List TreeNode) (k : Nat),
    (tagChildren cs k).length = cs.length := by
  intro cs
  induction cs with
  | nil => intro k; rfl
  | cons c cs ih =>
    intro k
    rw [tagChildren, List.length_cons, List.length_cons, ih]

theorem tagChildren_map_child : ∀ (cs : List TreeNode) (k : Nat),
    (tagChildren cs k).map (fun q => q.child) = cs := by
  intro cs
  induction cs with
  | nil => intro k; rfl
  | cons c cs ih =>
    intro k
    rw [tagChildren, List.map_cons, ih]

theorem tagChildren_order : ∀ (cs : List TreeNode) (k : Nat) (q : OrderedChild),
    q ∈ tagChildren cs k → q.order = resolveOrderIndex q.child := by
  intro cs
  induction cs with
  | nil => intro k q hq; simp [tagChildren] at hq
  | cons c cs ih =>
    intro k q hq
    rw [tagChildren] at hq
    rcases List.mem_cons.mp hq with rfl | hq'
    · rfl
    · exact ih (k + 1) q hq'

theorem tagChildren_child_mem : ∀ (cs : List TreeNode) (k : Nat) (q : OrderedChild),
    q ∈ tagChildren cs k → q.child ∈ cs := by
  intro cs k q hq
  have := List.mem_map_of_mem (fun q => q.child) hq
  rw [tagChildren_map_child] at this
  exact this

theorem tagChildren_oi_ge : ∀ (cs : List TreeNode) (k : Nat) (q : OrderedChild),
    q ∈ tagChildren cs k → k ≤ q.originalIndex := by
  intro cs
  induction cs with
  | nil => intro k q hq; simp [tagChildren] at hq
  | cons c cs ih =>
    intro k q hq
    rw [tagChildren] at hq
    rcases List.mem_cons.mp hq with rfl | hq'
    · exact Nat.le_refl _
    · exact Nat.le_of_succ_le (ih (k + 1) q hq')

theorem tagChildren_oi_lt : ∀ (cs : List TreeNode) (k : Nat),
    (tagChildren cs k).Pairwise fun a b => a.originalIndex < b.originalIndex := by
  intro cs
  induction cs with
  | nil => intro k; exact List.Pairwise.nil
  | cons c cs ih =>
    intro k
    rw [tagChildren]
    refine List.Pairwise.cons ?_ (ih (k + 1))
    intro q hq
    show k < q.originalIndex
    have := tagChildren_oi_ge cs (k + 1) q hq
    omega

theorem seqLe_total (a b : OrderedChild) : seqLe a b = true ∨ seqLe b a = true := by
  unfold seqLe
  rcases ha : a.order with _ | x <;> rcases hb : b.order with _ | y <;> dsimp only
  · simp only [decide_eq_true_eq]; omega
  · simp only [decide_eq_true_eq]; omega
  · simp only [decide_eq_true_eq]; omega
  · by_cases hxy : x = y
    · rw [if_pos hxy, if_pos hxy.symm]
      simp only [decide_eq_true_eq]
      omega
    · rw [if_neg hxy, if_neg (Ne.symm hxy)]
      simp only [decide_eq_true_eq]
      omega

theorem seqLe_trans (a b c : OrderedChild)
    (ha : a.order.isSome = true) (hb : b.order.isSome = true) (hc : c.order.isSome = true)
    (h1 : seqLe a b = true) (h2 : seqLe b c = true) : seqLe a c = true := by
  rcases hax : a.order with _ | x
  · rw [hax] at ha; simp at ha
  rcases hbx : b.order with _ | y
  · rw [hbx] at hb; simp at hb
  rcases hcx : c.order with _ | z
  · rw [hcx] at hc; simp at hc
  unfold seqLe at h1 h2 ⊢
  rw [hax, hbx] at h1
  rw [hbx, hcx] at h2
  rw [hax, hcx]
  dsimp only at h1 h2 ⊢
  by_cases hxy : x = y <;> by_cases hyz : y = z <;> by_cases hxz : x = z <;>
    simp only [hxy, hyz, hxz, if_pos, if_neg, decide_eq_true_eq] at h1 h2 ⊢ <;>
    first
      | omega
      | (split_ifs at h1 h2 ⊢ <;> simp_all <;> omega)

theorem orderedInsertB_perm (le : OrderedChild → OrderedChild → Bool) (a : OrderedChild) :
    ∀ l : List OrderedChild, (orderedInsertB le a l).Perm (a :: l) := by
  intro l
  induction l with
  | nil => exact List.Perm.refl _
  | cons b t ih =>
    rw [orderedInsertB]
    by_cases h : le a b = true
    · rw [if_pos h]
    · rw [if_neg h]
      exact (ih.cons b).trans (List.Perm.swap a b t)

theorem insertionSortB_perm (le : OrderedChild → OrderedChild → Bool) :
    ∀ l : List OrderedChild, (insertionSortB le l).Perm l := by
  intro l
  induction l with
  | nil => exact List.Perm.refl _
  | cons a t ih =>
    rw [insertionSortB]
    exact (orderedInsertB_perm le a (insertionSortB le t)).trans (ih.cons a)

theorem orderedInsertB_pairwise (a : OrderedChild) :
    ∀ l : List OrderedChild,
      a.order.isSome = true → (∀ q ∈ l, q.order.isSome = true) →
      (l.Pairwise fun x y => seqLe x y = true) →
      (orderedInsertB seqLe a l).Pairwise fun x y => seqLe x y = true := by
  intro l
  induction l with
  | nil =>
    intro _ _ _
    exact List.pairwise_singleton _ _
  | cons b t ih =>
    intro ha hl hs
    rw [orderedInsertB]
    rcases List.pairwise_cons.mp hs with ⟨hbt, hst⟩
    by_cases hab : seqLe a b = true
    · rw [if_pos hab]
      refine List.Pairwise.cons ?_ hs
      intro q hq
      rcases List.mem_cons.mp hq with rfl | hq'
      · exact hab
      · exact seqLe_trans a b q ha (hl b (by simp)) (hl q (by simp [hq'])) hab (hbt q hq')
    · rw [if_neg hab]
      refine List.Pairwise.cons ?_ (ih ha (fun q hq => hl q (by simp [hq])) hst)
      intro q hq
      have hq' : q = a ∨ q ∈ t := by
        have := (orderedInsertB_perm seqLe a t).mem_iff.mp hq
        simpa using this
      rcases hq' with rfl | hq'
      · rcases seqLe_total q b with h | h
        · exact absurd h hab
        · exact h
      · exact hbt q hq'

theorem insertionSortB_pairwise :
    ∀ l : List OrderedChild, (∀ q ∈ l, q.order.isSome = true) →
      (insertionSortB seqLe l).Pairwise fun x y => seqLe x y = true := by
  intro l
  induction l with
  | nil => intro _; exact List.Pairwise.nil
  | cons a t ih =>
    intro hl
    rw [insertionSortB]
    refine orderedInsertB_pairwise a (insertionSortB seqLe t) (hl a (by simp)) ?_
      (ih fun q hq => hl q (by simp [hq]))
    intro q hq
    exact hl q (by simp [(insertionSortB_perm seqLe t).mem_iff.mp hq])

theorem eq_of_perm_of_oiLt :
    ∀ (l₁ l₂ : List OrderedChild), l₁.Perm l₂ →
      (l₁.Pairwise fun a b => a.originalIndex < b.originalIndex) →
      (l₂.Pairwise fun a b => a.originalIndex < b.originalIndex) → l₁ = l₂ := by
  intro l₁
  induction l₁ with
  | nil =>
    intro l₂ hp _ _
    exact hp.nil_eq
  | cons a t₁ ih =>
    intro l₂ hp hp₁ hp₂
    cases l₂ with
    | nil => exact absurd hp.symm.nil_eq (by simp)
    | cons b t₂ =>
      have hab : a = b := by
        have haIn : a ∈ b :: t₂ := hp.mem_iff.mp (by simp)
        have hbIn : b ∈ a :: t₁ := hp.symm.mem_iff.mp (by simp)
        rcases List.mem_cons.mp haIn with h1 | h1
        · exact h1
        · rcases List.mem_cons.mp hbIn with h2 | h2
          · exact h2.symm
          · have hba := (List.pairwise_cons.mp hp₂).1 a h1
            have hab' := (List.pairwise_cons.mp hp₁).1 b h2
            omega
      subst hab
      rw [ih t₂ hp.cons_inv (List.pairwise_cons.mp hp₁).2 (List.pairwise_cons.mp hp₂).2]

theorem resolveSequentialOrder_not_all (children : List TreeNode)
    (h : ¬ ∀ c ∈ children, (resolveOrderIndex c).isSome = true) :
    resolveSequentialOrder children = children := by
  unfold resolveSequentialOrder
  by_cases h2 : ((tagChildren children 0).filter fun item => item.order.isSome).length < 2
  · rw [if_pos h2]
  · rw [if_neg h2, if_pos ?_]
    intro heq
    apply h
    intro c hc
    have hc' : c ∈ (tagChildren children 0).map (fun q => q.child) := by
      rw [tagChildren_map_child]
      exact hc
    obtain ⟨q, hq, rfl⟩ := List.mem_map.mp hc'
    have hqq : q.order.isSome = true := by
      refine filter_length_all (fun item => item.order.isSome) (tagChildren children 0) ?_ q hq
      rw [heq, tagChildren_length]
    rw [tagChildren_order children 0 q hq] at hqq
    exact hqq

theorem resolveSequentialOrder_all (children : List TreeNode)
    (h2 : 2 ≤ children.length)
    (hall : ∀ c ∈ children, (resolveOrderIndex c).isSome = true) :
    resolveSequentialOrder children
      = (insertionSortB seqLe (tagChildren children 0)).map (fun q => q.child) := by
  unfold resolveSequentialOrder
  have hfe : ((tagChildren children 0).filter fun item => item.order.isSome)
      = tagChildren children 0 := by
    refine List.filter_eq_self.mpr ?_
    intro q hq
    rw [tagChildren_order children 0 q hq]
    exact hall q.child (tagChildren_child_mem children 0 q hq)
  rw [hfe]
  dsimp only
  simp only [tagChildren_length]
  rw [if_neg (by omega), if_neg (by simp)]

/-- C6: when `resolveFlowMode` returns `indexed` for at least two children,
the returned order is the children stably sorted by resolved order index
(explicit `index`, else `indexStart`) when every child exposes one — a
permutation, sorted by resolved index, with equal indices keeping their
original relative order — and is the original list unchanged whenever some
child lacks an order index. -/
theorem claim6_theorem (parent : TreeNode) (children : List TreeNode)
    (order : List TreeNode) (hlen : 2 ≤ children.length)
    (hmode : resolveFlowMode parent children = FlowMode.indexed order) :
    ((∀ c ∈ children, (resolveOrderIndex c).isSome = true) →
      order.Perm children ∧
      (order.Pairwise fun a b =>
        (resolveOrderIndex a).getD 0 ≤ (resolveOrderIndex b).getD 0) ∧
      ∀ v : Option Int,
        (order.filter fun c => resolveOrderIndex c == v)
          = children.filter fun c => resolveOrderIndex c == v) ∧
    ((¬ ∀ c ∈ children, (resolveOrderIndex c).isSome = true) → order = children) := by
  have horder : resolveSequentialOrder children = order := by
    unfold resolveFlowMode at hmode
    rw [if_neg (show ¬ children.length < 2 by omega)] at hmode
    by_cases hp : isParallelContainer parent = true
    · rw [if_pos hp] at hmode
      exact absurd hmode (by simp)
    · rw [if_neg hp] at hmode
      by_cases hq : hasParallelBranches children = true
      · rw [if_pos hq] at hmode
        exact absurd hmode (by simp)
      · rw [if_neg hq] at hmode
        injection hmode
  constructor
  · intro hall
    rw [← horder, resolveSequentialOrder_all children hlen hall]
    have hallq : ∀ q ∈ tagChildren children 0, q.order.isSome = true := by
      intro q hq
      rw [tagChildren_order children 0 q hq]
      exact hall q.child (tagChildren_child_mem children 0 q hq)
    have hperm : (insertionSortB seqLe (tagChildren children 0)).Perm
        (tagChildren children 0) := insertionSortB_perm seqLe _
    have hsorted := insertionSortB_pairwise (tagChildren children 0) hallq
    refine ⟨?_, ?_, ?_⟩
    · have := hperm.map (fun q => q.child)
      rw [tagChildren_map_child] at this
      exact this
    · rw [List.pairwise_map]
      refine hsorted.imp_of_mem ?_
      intro a b ha hb hab
      have ha' := tagChildren_order children 0 a (hperm.mem_iff.mp ha)
      have hb' := tagChildren_order children 0 b (hperm.mem_iff.mp hb)
      have haS := hallq a (hperm.mem_iff.mp ha)
      have hbS := hallq b (hperm.mem_iff.mp hb)
      rw [← ha', ← hb']
      rcases hao : a.order with _ | x
      · rw [hao] at haS
        simp at haS
      rcases hbo : b.order with _ | y
      · rw [hbo] at hbS
        simp at hbS
      unfold seqLe at hab
      rw [hao, hbo] at hab
      dsimp only at hab
      simp only [Option.getD_some]
      by_cases hxy : x = y
      · omega
      · rw [if_neg hxy] at hab
        simp only [decide_eq_true_eq] at hab
        exact hab
    · intro v
      have hkey : ((insertionSortB seqLe (tagChildren children 0)).filter
            ((fun c => resolveOrderIndex c == v) ∘ fun q => q.child))
          = ((tagChildren children 0).filter
            ((fun c => resolveOrderIndex c == v) ∘ fun q => q.child)) := by
        apply eq_of_perm_of_oiLt
        · exact hperm.filter _
        · have hne : (insertionSortB seqLe (tagChildren children 0)).Pairwise
              fun a b => a.originalIndex ≠ b.originalIndex := by
            refine (hperm.pairwise_iff (fun hab => Ne.symm hab)).mpr ?_
            exact (tagChildren_oi_lt children 0).imp fun hab => Nat.ne_of_lt hab
          have hle' : ((insertionSortB seqLe (tagChildren children 0)).filter
                ((fun c => resolveOrderIndex c == v) ∘ fun q => q.child)).Pairwise
              fun a b => a.originalIndex ≤ b.originalIndex := by
            refine (hsorted.filter _).imp_of_mem ?_
            intro a b ha hb hab
            have hPa := List.of_mem_filter ha
            have hPb := List.of_mem_filter hb
            have hma := List.mem_of_mem_filter ha
            have hmb := List.mem_of_mem_filter hb
            have ha' := tagChildren_order children 0 a (hperm.mem_iff.mp hma)
            have hb' := tagChildren_order children 0 b (hperm.mem_iff.mp hmb)
            rw [Function.comp_apply, beq_iff_eq] at hPa hPb
            have hav : a.order = v := by rw [ha', hPa]
            have hbv : b.order = v := by rw [hb', hPb]
            unfold seqLe at hab
            rw [hav, hbv] at hab
            rcases v with _ | x
            · dsimp only at hab
              simp only [decide_eq_true_eq] at hab
              exact hab
            · dsimp only at hab
              rw [if_pos rfl] at hab
              simp only [decide_eq_true_eq] at hab
              exact hab
          exact (hle'.and (hne.filter _)).imp fun hab =>
            Nat.lt_of_le_of_ne hab.1 hab.2
        · exact (tagChildren_oi_lt children 0).filter _
      calc ((insertionSortB seqLe (tagChildren children 0)).map fun q => q.child).filter
              (fun c => resolveOrderIndex c == v)
          = ((insertionSortB seqLe (tagChildren children 0)).filter
              ((fun c => resolveOrderIndex c == v) ∘ fun q => q.child)).map
              (fun q => q.child) := List.filter_map _ _
        _ = ((tagChildren children 0).filter
              ((fun c => resolveOrderIndex c == v) ∘ fun q => q.child)).map
              (fun q => q.child) := by rw [hkey]
        _ = ((tagChildren children 0).map fun q => q.child).filter
              (fun c => resolveOrderIndex c == v) := (List.filter_map _ _).symm
        _ = children.filter (fun c => resolveOrderIndex c == v) := by
              rw [tagChildren_map_child]
  · intro hnall
    rw [← horder]
    exact resolveSequentialOrder_not_all children hnall

/-- C6, witness: the ordering theorem evaluated on two children with
explicit indices 1 and 0, which the flow classifier returns sorted. -/
theorem claim6_witness :
    (2 ≤ [w6a, w6b].length ∧
      resolveFlowMode w6p [w6a, w6b] = FlowMode.indexed [w6b, w6a]) ∧
    (((∀ c ∈ [w6a, w6b], (resolveOrderIndex c).isSome = true) →
      List.Perm [w6b, w6a] [w6a, w6b] ∧
      (List.Pairwise (fun a b =>
        (resolveOrderIndex a).getD 0 ≤ (resolveOrderIndex b).getD 0) [w6b, w6a]) ∧
      ∀ v : Option Int,
        (List.filter (fun c => resolveOrderIndex c == v) [w6b, w6a])
          = List.filter (fun c => resolveOrderIndex c == v) [w6a, w6b]) ∧
    ((¬ ∀ c ∈ [w6a, w6b], (resolveOrderIndex c).isSome = true) → [w6b, w6a] = [w6a, w6b])) :=
  ⟨⟨by decide, by decide⟩, claim6_theorem w6p [w6a, w6b] [w6b, w6a] (by decide) (by decide)⟩

/-- C8, counterexample: an input tree with pairwise-distinct node ids whose
compact expansion splits the collapsed node `c/x` into a segment with id
`c/x::0-7`, colliding with a real input container of that path; the
containment edge `structure:c/x::0-7=>c/x::0-7::0` is then emitted twice. -/
theorem claim8_counterexample :
    (nodeIds cex8root).Nodup ∧
    ¬ ((buildGraphEdges cex8root cex8options).map GEdge.id).Nodup := by decide

theorem nodeIds_eq (t : TreeNode) : nodeIds t = t.id :: nodeIdsList t.children := by
  cases t
  rfl

theorem mem_nodeIdsList_of_mem :
    ∀ (cs : List TreeNode) (c : TreeNode), c ∈ cs → c.id ∈ nodeIdsList cs := by
  intro cs
  induction cs with
  | nil => intro c hc; simp at hc
  | cons d ds ih =>
    intro c hc
    rw [nodeIdsList, List.mem_append]
    rcases List.mem_cons.mp hc with rfl | hc'
    · left
      rw [nodeIds_eq]
      exact List.mem_cons_self _ _
    · right
      exact ih c hc'

theorem mem_nodeIdsList_of_mem_nodeIds :
    ∀ (cs : List TreeNode) (c : TreeNode) (x : String),
      c ∈ cs → x ∈ nodeIds c → x ∈ nodeIdsList cs := by
  intro cs
  induction cs with
  | nil => intro c x hc _; simp at hc
  | cons d ds ih =>
    intro c x hc hx
    rw [nodeIdsList, List.mem_append]
    rcases List.mem_cons.mp hc with rfl | hc'
    · exact Or.inl hx
    · exact Or.inr (ih c x hc' hx)

theorem mem_nodeIds_of_mem_children (t : TreeNode) (x : String)
    (hx : x ∈ nodeIdsList t.children) : x ∈ nodeIds t := by
  rw [nodeIds_eq]
  exact List.mem_cons_of_mem _ hx

theorem roots_nodup : ∀ (cs : List TreeNode),
    (nodeIdsList cs).Nodup → (cs.map TreeNode.id).Nodup := by
  intro cs
  induction cs with
  | nil => intro _; exact List.nodup_nil
  | cons c ds ih =>
    intro h
    rw [nodeIdsList] at h
    obtain ⟨h1, h2, hdisj⟩ := List.nodup_append.mp h
    rw [List.map_cons]
    refine List.Nodup.cons ?_ (ih h2)
    intro hmem
    obtain ⟨c', hc', hc'id⟩ := List.mem_map.mp hmem
    have hxl : c.id ∈ nodeIds c := by
      rw [nodeIds_eq]
      exact List.mem_cons_self _ _
    have hxr : c.id ∈ nodeIdsList ds := by
      rw [← hc'id] at hxl ⊢
      exact mem_nodeIdsList_of_mem ds c' hc'
    exact hdisj hxl hxr

theorem nodup_map_of_nodup_map {α β γ : Type} (f : α → β) (g : α → γ) (l : List α)
    (hg : (l.map g).Nodup) (h : ∀ a ∈ l, ∀ b ∈ l, f a = f b → g a = g b) :
    (l.map f).Nodup := by
  unfold List.Nodup at hg ⊢
  rw [List.pairwise_map] at hg ⊢
  refine hg.imp_of_mem ?_
  intro a b ha hb hgnab hfab
  exact hgnab (h a ha b hb hfab)

theorem charsIncludes_cons (c : Char) (cs sub : List Char) :
    charsIncludes (c :: cs) sub = (sub.isPrefixOf (c :: cs) || charsIncludes cs sub) := by
  unfold charsIncludes
  rw [List.tails_cons, List.any_cons]

theorem arrow_split :
    ∀ (a₁ a₂ b₁ b₂ : List Char),
      charsIncludes a₁ ['=', '>'] = false → charsIncludes a₂ ['=', '>'] = false →
      a₁ ++ '=' :: '>' :: b₁ = a₂ ++ '=' :: '>' :: b₂ → a₁ = a₂ ∧ b₁ = b₂ := by
  intro a₁
  induction a₁ with
  | nil =>
    intro a₂ b₁ b₂ _ ha₂ heq
    cases a₂ with
    | nil =>
      rw [List.nil_append, List.nil_append] at heq
      injection heq with _ heq
      injection heq with _ heq
      exact ⟨rfl, heq⟩
    | cons c t =>
      rw [List.nil_append, List.cons_append] at heq
      injection heq with hc heq
      cases t with
      | nil =>
        rw [List.nil_append] at heq
        injection heq with hgt _
        exact absurd hgt (by decide)
      | cons c2 t2 =>
        rw [List.cons_append] at heq
        injection heq with hc2 _
        subst hc
        subst hc2
        rw [charsIncludes_cons] at ha₂
        have : (['=', '>'].isPrefixOf ('=' :: '>' :: t2)) = true := by
          simp [List.isPrefixOf]
        rw [this] at ha₂
        simp at ha₂
  | cons c t₁ ih =>
    intro a₂ b₁ b₂ ha₁ ha₂ heq
    cases a₂ with
    | nil =>
      rw [List.nil_append, List.cons_append] at heq
      injection heq with hc heq
      cases t₁ with
      | nil =>
        rw [List.nil_append] at heq
        injection heq with hgt _
        exact absurd hgt (by decide)
      | cons c2 t2 =>
        rw [List.cons_append] at heq
        injection heq with hc2 _
        subst hc
        subst hc2
        rw [charsIncludes_cons] at ha₁
        have : (['=', '>'].isPrefixOf ('=' :: '>' :: t2)) = true := by
          simp [List.isPrefixOf]
        rw [this] at ha₁
        simp at ha₁
    | cons c₂ t₂ =>
      rw [List.cons_append, List.cons_append] at heq
      injection heq with hc heq
      subst hc
      rw [charsIncludes_cons] at ha₁ ha₂
      have h₁ : charsIncludes t₁ ['=', '>'] = false := by
        rcases Bool.or_eq_false_iff.mp ha₁ with ⟨-, h⟩
        exact h
      have h₂ : charsIncludes t₂ ['=', '>'] = false := by
        rcases Bool.or_eq_false_iff.mp ha₂ with ⟨-, h⟩
        exact h
      obtain ⟨he, hb⟩ := ih t₂ b₁ b₂ h₁ h₂ heq
      exact ⟨by rw [he], hb⟩

theorem strIncludes_arrow (s : String) :
    strIncludes s "=>" = charsIncludes s.data ['=', '>'] := rfl

theorem enc_inj (pre s₁ t₁ s₂ t₂ : String)
    (h₁ : charsIncludes s₁.data ['=', '>'] = false)
    (h₂ : charsIncludes s₂.data ['=', '>'] = false)
    (heq : pre ++ s₁ ++ "=>" ++ t₁ = pre ++ s₂ ++ "=>" ++ t₂) : s₁ = s₂ ∧ t₁ = t₂ := by
  have hd := congrArg String.data heq
  simp only [String.data_append] at hd
  simp only [List.append_assoc] at hd
  have hd' := List.append_cancel_left hd
  obtain ⟨hs, ht⟩ := arrow_split s₁.data s₂.data t₁.data t₂.data h₁ h₂ hd'
  constructor
  · cases s₁
    cases s₂
    simp only at hs
    rw [hs]
  · cases t₁
    cases t₂
    simp only at ht
    rw [ht]

theorem struct_ne_flow (s₁ t₁ s₂ t₂ : String) :
    ("structure:" ++ s₁ ++ "=>" ++ t₁) ≠ ("flow:" ++ s₂ ++ "=>" ++ t₂) := by
  intro h
  have hd := congrArg String.data h
  simp only [String.data_append] at hd
  have h1 : (("structure:" : String).data ++ s₁.data ++ ("=>" : String).data ++ t₁.data).head?
      = some 's' := rfl
  have h2 : (("flow:" : String).data ++ s₂.data ++ ("=>" : String).data ++ t₂.data).head?
      = some 'f' := rfl
  rw [hd] at h1
  rw [h2] at h1
  injection h1 with h1
  exact absurd h1 (by decide)

theorem nodeIdsList_cons (c : TreeNode) (cs : List TreeNode) :
    nodeIdsList (c :: cs) = nodeIds c ++ nodeIdsList cs := rfl

theorem aux_root_not_interior : ∀ (cs : List TreeNode), (nodeIdsList cs).Nodup →
    ∀ b ∈ cs, ∀ c ∈ cs, b.id ∉ nodeIdsList c.children := by
  intro cs
  induction cs with
  | nil => intro _ b hb; simp at hb
  | cons d ds ih =>
    intro h b hb c hc hbad
    rw [nodeIdsList_cons] at h
    obtain ⟨h1, h2, hdisj⟩ := List.nodup_append.mp h
    have hintc : ∀ x ∈ nodeIdsList c.children, x ∈ nodeIds c := fun x hx =>
      mem_nodeIds_of_mem_children c x hx
    rcases List.mem_cons.mp hb with rfl | hb' <;> rcases List.mem_cons.mp hc with rfl | hc'
    · rw [nodeIds_eq] at h1
      exact (List.nodup_cons.mp h1).1 hbad
    · exact hdisj (by rw [nodeIds_eq]; exact List.mem_cons_self _ _)
        (mem_nodeIdsList_of_mem_nodeIds ds c b.id hc' (hintc _ hbad))
    · exact hdisj (hintc _ hbad) (mem_nodeIdsList_of_mem ds b hb')
    · exact ih h2 b hb' c hc' hbad

mutual

theorem structEdges_mem : ∀ (t : TreeNode), ∀ e ∈ structEdges t,
    e.id = "structure:" ++ e.source ++ "=>" ++ e.target ∧
    e.source ∈ nodeIds t ∧ e.target ∈ nodeIdsList t.children
  | .node d cs => by
    intro e he
    rw [structEdges] at he
    by_cases hcs : cs.isEmpty
    · rw [if_pos hcs] at he
      simp at he
    · rw [if_neg hcs] at he
      rcases hfm : resolveFlowMode (.node d cs) cs with ord | _ <;> rw [hfm] at he
      · obtain ⟨henc, hsrc, htgt⟩ := structChildEdges_mem d.id cs e he
        refine ⟨henc, ?_, htgt⟩
        rw [nodeIds_eq]
        exact hsrc
      · obtain ⟨henc, hsrc, htgt⟩ := structEdgesList_mem cs e he
        refine ⟨henc, ?_, htgt⟩
        rw [nodeIds_eq]
        exact List.mem_cons_of_mem _ hsrc

theorem structChildEdges_mem : ∀ (pid : String) (cs : List TreeNode),
    ∀ e ∈ structChildEdges pid cs,
      e.id = "structure:" ++ e.source ++ "=>" ++ e.target ∧
      e.source ∈ pid :: nodeIdsList cs ∧ e.target ∈ nodeIdsList cs
  | pid, [] => by
    intro e he
    rw [structChildEdges] at he
    simp at he
  | pid, c :: cs => by
    intro e he
    rw [structChildEdges] at he
    rcases List.mem_cons.mp he with rfl | he'
    · refine ⟨rfl, List.mem_cons_self _ _, ?_⟩
      exact mem_nodeIdsList_of_mem (c :: cs) c (List.mem_cons_self _ _)
    · rcases List.mem_append.mp he' with he'' | he''
      · obtain ⟨henc, hsrc, htgt⟩ := structEdges_mem c e he''
        refine ⟨henc, List.mem_cons_of_mem _ ?_, ?_⟩
        · rw [nodeIdsList_cons]
          exact List.mem_append_left _ hsrc
        · rw [nodeIdsList_cons]
          exact List.mem_append_left _ (mem_nodeIds_of_mem_children c _ htgt)
      · obtain ⟨henc, hsrc, htgt⟩ := structChildEdges_mem pid cs e he''
        refine ⟨henc, ?_, ?_⟩
        · rcases List.mem_cons.mp hsrc with hs | hs
          · rw [hs]
            exact List.mem_cons_self _ _
          · refine List.mem_cons_of_mem _ ?_
            rw [nodeIdsList_cons]
            exact List.mem_append_right _ hs
        · rw [nodeIdsList_cons]
          exact List.mem_append_right _ htgt

theorem structEdgesList_mem : ∀ (cs : List TreeNode), ∀ e ∈ structEdgesList cs,
    e.id = "structure:" ++ e.source ++ "=>" ++ e.target ∧
    e.source ∈ nodeIdsList cs ∧ e.target ∈ nodeIdsList cs
  | [] => by
    intro e he
    rw [structEdgesList] at he
    simp at he
  | c :: cs => by
    intro e he
    rw [structEdgesList] at he
    rcases List.mem_append.mp he with he' | he'
    · obtain ⟨henc, hsrc, htgt⟩ := structEdges_mem c e he'
      refine ⟨henc, ?_, ?_⟩
      · rw [nodeIdsList_cons]
        exact List.mem_append_left _ hsrc
      · rw [nodeIdsList_cons]
        exact List.mem_append_left _ (mem_nodeIds_of_mem_children c _ htgt)
    · obtain ⟨henc, hsrc, htgt⟩ := structEdgesList_mem cs e he'
      refine ⟨henc, ?_, ?_⟩
      · rw [nodeIdsList_cons]
        exact List.mem_append_right _ hsrc
      · rw [nodeIdsList_cons]
        exact List.mem_append_right _ htgt

end

theorem resolveSequentialOrder_perm (children : List TreeNode) :
    (resolveSequentialOrder children).Perm children := by
  unfold resolveSequentialOrder
  dsimp only
  by_cases h1 : ((tagChildren children 0).filter fun item => item.order.isSome).length < 2
  · rw [if_pos h1]
  · rw [if_neg h1]
    by_cases h2 :
        ((tagChildren children 0).filter fun item => item.order.isSome).length ≠
          children.length
    · rw [if_pos h2]
    · rw [if_neg h2]
      rw [not_ne_iff] at h2
      rw [← tagChildren_length children 0] at h2
      have hall := filter_length_all (fun item => item.order.isSome)
        (tagChildren children 0) h2
      rw [List.filter_eq_self.mpr hall]
      have hp := (insertionSortB_perm seqLe (tagChildren children 0)).map
        fun q => q.child
      rw [tagChildren_map_child] at hp
      exact hp

theorem resolveFlowMode_indexed_perm (p : TreeNode) (cs ord : List TreeNode)
    (h : resolveFlowMode p cs = .indexed ord) : ord.Perm cs := by
  unfold resolveFlowMode at h
  by_cases h1 : cs.length < 2
  · rw [if_pos h1] at h
    injection h with h
    rw [← h]
  · rw [if_neg h1] at h
    by_cases hp : isParallelContainer p = true
    · rw [if_pos hp] at h
      exact absurd h (by simp)
    · rw [if_neg hp] at h
      by_cases hq : hasParallelBranches cs = true
      · rw [if_pos hq] at h
        exact absurd h (by simp)
      · rw [if_neg hq] at h
        injection h with h
        rw [← h]
        exact resolveSequentialOrder_perm cs

theorem chainEdges_targets (ord : List TreeNode) :
    (chainEdges ord).map GEdge.target = ord.tail.map TreeNode.id := by
  unfold chainEdges
  rw [List.map_map]
  have hlen : ord.tail.length ≤ ord.length := by
    rw [List.length_tail]
    omega
  have hsnd : (ord.zip ord.tail).map Prod.snd = ord.tail :=
    List.map_snd_zip _ _ hlen
  conv_rhs => rw [← hsnd, List.map_map]
  rfl

theorem chainEdges_mem (ord : List TreeNode) : ∀ e ∈ chainEdges ord,
    e.id = "flow:" ++ e.source ++ "=>" ++ e.target ∧
    (∃ a ∈ ord, e.source = a.id) ∧ (∃ b ∈ ord, e.target = b.id) := by
  intro e he
  unfold chainEdges at he
  obtain ⟨p, hp, rfl⟩ := List.mem_map.mp he
  have h1 := List.of_mem_zip hp
  refine ⟨rfl, ⟨p.1, h1.1, rfl⟩, ⟨p.2, ?_, rfl⟩⟩
  exact List.mem_of_mem_tail h1.2

mutual

theorem flowEdges_mem : ∀ (t : TreeNode), ∀ e ∈ flowEdges t,
    e.id = "flow:" ++ e.source ++ "=>" ++ e.target ∧
    e.source ∈ nodeIds t ∧ e.target ∈ nodeIdsList t.children
  | .node d cs => by
    intro e he
    rw [flowEdges] at he
    by_cases hcs : cs.isEmpty
    · rw [if_pos hcs] at he
      simp at he
    · rw [if_neg hcs] at he
      rcases hfm : resolveFlowMode (.node d cs) cs with ord | _ <;> rw [hfm] at he
      · have hperm := resolveFlowMode_indexed_perm (.node d cs) cs ord hfm
        rcases List.mem_append.mp he with he' | he'
        · obtain ⟨henc, ⟨a, ha, hsa⟩, ⟨b, hb, htb⟩⟩ := chainEdges_mem ord e he'
          refine ⟨henc, ?_, ?_⟩
          · rw [nodeIds_eq, hsa]
            exact List.mem_cons_of_mem _
              (mem_nodeIdsList_of_mem cs a (hperm.mem_iff.mp ha))
          · rw [htb]
            exact mem_nodeIdsList_of_mem cs b (hperm.mem_iff.mp hb)
        · obtain ⟨henc, hsrc, htgt⟩ := flowEdgesList_mem cs e he'
          refine ⟨henc, ?_, htgt⟩
          rw [nodeIds_eq]
          exact List.mem_cons_of_mem _ hsrc
      · obtain ⟨henc, hsrc, htgt⟩ := hubEdges_mem d.id cs e he
        refine ⟨henc, ?_, htgt⟩
        rw [nodeIds_eq]
        exact hsrc

theorem hubEdges_mem : ∀ (pid : String) (cs : List TreeNode),
    ∀ e ∈ hubEdges pid cs,
      e.id = "flow:" ++ e.source ++ "=>" ++ e.target ∧
      e.source ∈ pid :: nodeIdsList cs ∧ e.target ∈ nodeIdsList cs
  | pid, [] => by
    intro e he
    rw [hubEdges] at he
    simp at he
  | pid, c :: cs => by
    intro e he
    rw [hubEdges] at he
    rcases List.mem_cons.mp he with rfl | he'
    · refine ⟨rfl, List.mem_cons_self _ _, ?_⟩
      exact mem_nodeIdsList_of_mem (c :: cs) c (List.mem_cons_self _ _)
    · rcases List.mem_append.mp he' with he'' | he''
      · obtain ⟨henc, hsrc, htgt⟩ := flowEdges_mem c e he''
        refine ⟨henc, List.mem_cons_of_mem _ ?_, ?_⟩
        · rw [nodeIdsList_cons]
          exact List.mem_append_left _ hsrc
        · rw [nodeIdsList_cons]
          exact List.mem_append_left _ (mem_nodeIds_of_mem_children c _ htgt)
      · obtain ⟨henc, hsrc, htgt⟩ := hubEdges_mem pid cs e he''
        refine ⟨henc, ?_, ?_⟩
        · rcases List.mem_cons.mp hsrc with hs | hs
          · rw [hs]
            exact List.mem_cons_self _ _
          · refine List.mem_cons_of_mem _ ?_
            rw [nodeIdsList_cons]
            exact List.mem_append_right _ hs
        · rw [nodeIdsList_cons]
          exact List.mem_append_right _ htgt

theorem flowEdgesList_mem : ∀ (cs : List TreeNode), ∀ e ∈ flowEdgesList cs,
    e.id = "flow:" ++ e.source ++ "=>" ++ e.target ∧
    e.source ∈ nodeIdsList cs ∧ e.target ∈ nodeIdsList cs
  | [] => by
    intro e he
    rw [flowEdgesList] at he
    simp at he
  | c :: cs => by
    intro e he
    rw [flowEdgesList] at he
    rcases List.mem_append.mp he with he' | he'
    · obtain ⟨henc, hsrc, htgt⟩ := flowEdges_mem c e he'
      refine ⟨henc, ?_, ?_⟩
      · rw [nodeIdsList_cons]
        exact List.mem_append_left _ hsrc
      · rw [nodeIdsList_cons]
        exact List.mem_append_left _ (mem_nodeIds_of_mem_children c _ htgt)
    · obtain ⟨henc, hsrc, htgt⟩ := flowEdgesList_mem cs e he'
      refine ⟨henc, ?_, ?_⟩
      · rw [nodeIdsList_cons]
        exact List.mem_append_right _ hsrc
      · rw [nodeIdsList_cons]
        exact List.mem_append_right _ htgt

end

mutual

theorem structEdges_tnodup : ∀ (t : TreeNode), (nodeIds t).Nodup →
    ((structEdges t).map GEdge.target).Nodup
  | .node d cs => by
    intro h
    rw [structEdges]
    by_cases hcs : cs.isEmpty
    · rw [if_pos hcs]
      exact List.nodup_nil
    · rw [if_neg hcs]
      rw [nodeIds_eq] at h
      have h2 := (List.nodup_cons.mp h).2
      rcases resolveFlowMode (.node d cs) cs with ord | _
      · exact structChildEdges_tnodup d.id cs h2
      · exact structEdgesList_tnodup cs h2

theorem structChildEdges_tnodup : ∀ (pid : String) (cs : List TreeNode),
    (nodeIdsList cs).Nodup → ((structChildEdges pid cs).map GEdge.target).Nodup
  | pid, [] => by
    intro _
    rw [structChildEdges]
    exact List.nodup_nil
  | pid, c :: cs => by
    intro h
    rw [nodeIdsList_cons] at h
    obtain ⟨h1, h2, hdisj⟩ := List.nodup_append.mp h
    rw [structChildEdges, List.map_cons, List.map_append]
    refine List.nodup_cons.mpr ⟨?_, ?_⟩
    · intro hmem
      rcases List.mem_append.mp hmem with hm | hm
      · obtain ⟨e, he, htgt⟩ := List.mem_map.mp hm
        have hint := (structEdges_mem c e he).2.2
        rw [htgt] at hint
        rw [nodeIds_eq] at h1
        exact (List.nodup_cons.mp h1).1 hint
      · obtain ⟨e, he, htgt⟩ := List.mem_map.mp hm
        have hint := (structChildEdges_mem pid cs e he).2.2
        rw [htgt] at hint
        refine hdisj ?_ hint
        rw [nodeIds_eq]
        exact List.mem_cons_self _ _
    · refine List.nodup_append.mpr
        ⟨structEdges_tnodup c h1, structChildEdges_tnodup pid cs h2, ?_⟩
      intro x hx hx'
      obtain ⟨e, he, htgt⟩ := List.mem_map.mp hx
      obtain ⟨e', he', htgt'⟩ := List.mem_map.mp hx'
      have hint := (structEdges_mem c e he).2.2
      rw [htgt] at hint
      have hint' := (structChildEdges_mem pid cs e' he').2.2
      rw [htgt'] at hint'
      exact hdisj (mem_nodeIds_of_mem_children c x hint) hint'

theorem structEdgesList_tnodup : ∀ (cs : List TreeNode),
    (nodeIdsList cs).Nodup → ((structEdgesList cs).map GEdge.target).Nodup
  | [] => by
    intro _
    rw [structEdgesList]
    exact List.nodup_nil
  | c :: cs => by
    intro h
    rw [nodeIdsList_cons] at h
    obtain ⟨h1, h2, hdisj⟩ := List.nodup_append.mp h
    rw [structEdgesList, List.map_append]
    refine List.nodup_append.mpr
      ⟨structEdges_tnodup c h1, structEdgesList_tnodup cs h2, ?_⟩
    intro x hx hx'
    obtain ⟨e, he, htgt⟩ := List.mem_map.mp hx
    obtain ⟨e', he', htgt'⟩ := List.mem_map.mp hx'
    have hint := (structEdges_mem c e he).2.2
    rw [htgt] at hint
    have hint' := (structEdgesList_mem cs e' he').2.2
    rw [htgt'] at hint'
    exact hdisj (mem_nodeIds_of_mem_children c x hint) hint'

end

mutual

theorem flowEdges_tnodup : ∀ (t : TreeNode), (nodeIds t).Nodup →
    ((flowEdges t).map GEdge.target).Nodup
  | .node d cs => by
    intro h
    rw [flowEdges]
    by_cases hcs : cs.isEmpty
    · rw [if_pos hcs]
      exact List.nodup_nil
    · rw [if_neg hcs]
      rw [nodeIds_eq] at h
      have h2 := (List.nodup_cons.mp h).2
      rcases hfm : resolveFlowMode (.node d cs) cs with ord | _
      · have hperm := resolveFlowMode_indexed_perm (.node d cs) cs ord hfm
        rw [List.map_append, chainEdges_targets]
        refine List.nodup_append.mpr ⟨?_, (flowEdgesList_tnodup cs h2).1, ?_⟩
        · have hroots : (cs.map TreeNode.id).Nodup := roots_nodup cs h2
          have hordn : (ord.map TreeNode.id).Nodup :=
            (hperm.map TreeNode.id).nodup_iff.mpr hroots
          exact List.Nodup.sublist ((List.tail_sublist ord).map TreeNode.id) hordn
        · intro x hx hx'
          obtain ⟨b, hb, hbx⟩ := List.mem_map.mp hx
          obtain ⟨e', he', htx⟩ := List.mem_map.mp hx'
          obtain ⟨c', hc', hint⟩ := (flowEdgesList_tnodup cs h2).2 e' he'
          rw [htx] at hint
          have hbcs : b ∈ cs := hperm.mem_iff.mp (List.mem_of_mem_tail hb)
          refine aux_root_not_interior cs h2 b hbcs c' hc' ?_
          rw [hbx]
          exact hint
      · exact hubEdges_tnodup d.id cs h2

theorem hubEdges_tnodup : ∀ (pid : String) (cs : List TreeNode),
    (nodeIdsList cs).Nodup → ((hubEdges pid cs).map GEdge.target).Nodup
  | pid, [] => by
    intro _
    rw [hubEdges]
    exact List.nodup_nil
  | pid, c :: cs => by
    intro h
    rw [nodeIdsList_cons] at h
    obtain ⟨h1, h2, hdisj⟩ := List.nodup_append.mp h
    rw [hubEdges, List.map_cons, List.map_append]
    refine List.nodup_cons.mpr ⟨?_, ?_⟩
    · intro hmem
      rcases List.mem_append.mp hmem with hm | hm
      · obtain ⟨e, he, htgt⟩ := List.mem_map.mp hm
        have hint := (flowEdges_mem c e he).2.2
        rw [htgt] at hint
        rw [nodeIds_eq] at h1
        exact (List.nodup_cons.mp h1).1 hint
      · obtain ⟨e, he, htgt⟩ := List.mem_map.mp hm
        have hint := (hubEdges_mem pid cs e he).2.2
        rw [htgt] at hint
        refine hdisj ?_ hint
        rw [nodeIds_eq]
        exact List.mem_cons_self _ _
    · refine List.nodup_append.mpr
        ⟨flowEdges_tnodup c h1, hubEdges_tnodup pid cs h2, ?_⟩
      intro x hx hx'
      obtain ⟨e, he, htgt⟩ := List.mem_map.mp hx
      obtain ⟨e', he', htgt'⟩ := List.mem_map.mp hx'
      have hint := (flowEdges_mem c e he).2.2
      rw [htgt] at hint
      have hint' := (hubEdges_mem pid cs e' he').2.2
      rw [htgt'] at hint'
      exact hdisj (mem_nodeIds_of_mem_children c x hint) hint'

theorem flowEdgesList_tnodup : ∀ (cs : List TreeNode), (nodeIdsList cs).Nodup →
    ((flowEdgesList cs).map GEdge.target).Nodup ∧
    ∀ e ∈ flowEdgesList cs, ∃ c ∈ cs, e.target ∈ nodeIdsList c.children
  | [] => by
    intro _
    refine ⟨?_, ?_⟩
    · rw [flowEdgesList]
      exact List.nodup_nil
    · intro e he
      rw [flowEdgesList] at he
      simp at he
  | c :: cs => by
    intro h
    rw [nodeIdsList_cons] at h
    obtain ⟨h1, h2, hdisj⟩ := List.nodup_append.mp h
    refine ⟨?_, ?_⟩
    · rw [flowEdgesList, List.map_append]
      refine List.nodup_append.mpr
        ⟨flowEdges_tnodup c h1, (flowEdgesList_tnodup cs h2).1, ?_⟩
      intro x hx hx'
      obtain ⟨e, he, htgt⟩ := List.mem_map.mp hx
      obtain ⟨e', he', htgt'⟩ := List.mem_map.mp hx'
      have hint := (flowEdges_mem c e he).2.2
      rw [htgt] at hint
      have hint' := (flowEdgesList_mem cs e' he').2.2
      rw [htgt'] at hint'
      exact hdisj (mem_nodeIds_of_mem_children c x hint) hint'
    · intro e he
      rw [flowEdgesList] at he
      rcases List.mem_append.mp he with he' | he'
      · exact ⟨c, List.mem_cons_self _ _, (flowEdges_mem c e he').2.2⟩
      · obtain ⟨c', hc', hint⟩ := (flowEdgesList_tnodup cs h2).2 e he'
        exact ⟨c', List.mem_cons_of_mem _ hc', hint⟩

end

/-- C8 (amended): in the edge array returned by `buildGraph`, edge ids are
pairwise distinct provided the resolved layout tree's node ids are pairwise
distinct and none of them contains the substring "=>".  (Distinctness of the
input tree's ids alone is not enough: see the counterexample, where a
synthetic split-segment id collides with a real node's path.) -/
theorem claim8_theorem (root : TreeNode) (options : GraphBuildOptions)
    (hnodup : (nodeIds (resolveGraphTree options root)).Nodup)
    (harrow : ∀ s ∈ nodeIds (resolveGraphTree options root),
      strIncludes s "=>" = false) :
    ((buildGraphEdges root options).map GEdge.id).Nodup := by
  have hbg : buildGraphEdges root options =
      structEdges (resolveGraphTree options root) ++
        flowEdges (resolveGraphTree options root) := rfl
  rw [hbg, List.map_append]
  refine List.nodup_append.mpr ⟨?_, ?_, ?_⟩
  · refine nodup_map_of_nodup_map GEdge.id GEdge.target _
      (structEdges_tnodup _ hnodup) ?_
    intro a ha b hb hab
    obtain ⟨henca, hsrca, _⟩ := structEdges_mem _ a ha
    obtain ⟨hencb, hsrcb, _⟩ := structEdges_mem _ b hb
    have h₁ : charsIncludes a.source.data ['=', '>'] = false := by
      rw [← strIncludes_arrow]
      exact harrow a.source hsrca
    have h₂ : charsIncludes b.source.data ['=', '>'] = false := by
      rw [← strIncludes_arrow]
      exact harrow b.source hsrcb
    have heq : "structure:" ++ a.source ++ "=>" ++ a.target =
        "structure:" ++ b.source ++ "=>" ++ b.target := by
      rw [← henca, hab, hencb]
    exact (enc_inj "structure:" a.source a.target b.source b.target h₁ h₂ heq).2
  · refine nodup_map_of_nodup_map GEdge.id GEdge.target _
      (flowEdges_tnodup _ hnodup) ?_
    intro a ha b hb hab
    obtain ⟨henca, hsrca, _⟩ := flowEdges_mem _ a ha
    obtain ⟨hencb, hsrcb, _⟩ := flowEdges_mem _ b hb
    have h₁ : charsIncludes a.source.data ['=', '>'] = false := by
      rw [← strIncludes_arrow]
      exact harrow a.source hsrca
    have h₂ : charsIncludes b.source.data ['=', '>'] = false := by
      rw [← strIncludes_arrow]
      exact harrow b.source hsrcb
    have heq : "flow:" ++ a.source ++ "=>" ++ a.target =
        "flow:" ++ b.source ++ "=>" ++ b.target := by
      rw [← henca, hab, hencb]
    exact (enc_inj "flow:" a.source a.target b.source b.target h₁ h₂ heq).2
  · intro x hx hx'
    obtain ⟨a, ha, hida⟩ := List.mem_map.mp hx
    obtain ⟨b, hb, hidb⟩ := List.mem_map.mp hx'
    have henca := (structEdges_mem _ a ha).1
    have hencb := (flowEdges_mem _ b hb).1
    exact struct_ne_flow a.source a.target b.source b.target
      (by rw [← henca, ← hencb, hida, hidb])

/-- Witness for C8 at a two-leaf container with arrow-free distinct ids. -/
theorem claim8_witness :
    ((nodeIds (resolveGraphTree w8options w8root)).Nodup ∧
      (∀ s ∈ nodeIds (resolveGraphTree w8options w8root),
        strIncludes s "=>" = false)) ∧
    ((buildGraphEdges w8root w8options).map GEdge.id).Nodup :=
  ⟨⟨by decide, by decide⟩,
    claim8_theorem w8root w8options (by decide) (by decide)⟩
